import Mathlib

/-!
Verification development for the hyperlink static-site link checker.

The Rust sources are shallowly embedded: Rust `&str`/`String` values are modeled
as their UTF-8 byte sequences (`List Nat`).  Every byte-level operation the
source performs on hrefs (`find`, `split('/')`, `truncate`, `starts_with`,
`rfind('/')`) involves only ASCII delimiter bytes, which never occur inside a
multi-byte UTF-8 character, so the byte-list model is faithful to the string
operations of the source.
-/

namespace Hyperlink

/-- Byte list of a list of ASCII characters (each below 0x80, so the UTF-8
encoding of the string is exactly the list of code points). -/
def chl (cs : List Char) : List Nat := cs.map Char.toNat

/-- Scan loop shared by `is_external_link` (src/urls.rs, lines 21-32) and
`is_bad_schema` (src/collector.rs, lines 206-217): scheme characters continue
the scan, a colon accepts, any other byte rejects, end of input rejects. -/
def schemeLoop : List Nat → Bool
  | [] => false
  | c :: rest =>
    if (97 ≤ c ∧ c ≤ 122) ∨ (65 ≤ c ∧ c ≤ 90) ∨ (48 ≤ c ∧ c ≤ 57) ∨ c = 43 ∨ c = 45 ∨ c = 46 then
      schemeLoop rest
    else
      decide (c = 58)

/-- Embedding of `is_external_link` (src/urls.rs): empty input is not external;
a protocol-relative `//` prefix is external; otherwise the input is external
iff it starts with an ASCII letter followed by scheme characters up to a colon.
The first-character test uses `u8::is_ascii_alphabetic`. -/
def is_external_link (url : List Nat) : Bool :=
  match url with
  | [] => false
  | first :: rest =>
    if (first :: rest).take 2 = [47, 47] then true
    else if ¬ ((65 ≤ first ∧ first ≤ 90) ∨ (97 ≤ first ∧ first ≤ 122)) then false
    else schemeLoop rest

/-- Embedding of `is_bad_schema` (src/collector.rs, lines 186-220).  The body
is the same algorithm as `is_external_link`; the first-character test is
written as the source writes it, `matches!(first_char, b'a'..=b'z' | b'A'..=b'Z')`. -/
def is_bad_schema (url : List Nat) : Bool :=
  match url with
  | [] => false
  | first :: rest =>
    if (first :: rest).take 2 = [47, 47] then true
    else if ¬ ((97 ≤ first ∧ first ≤ 122) ∨ (65 ≤ first ∧ first ≤ 90)) then false
    else schemeLoop rest

theorem is_bad_schema_eq_is_external_link (url : List Nat) :
    is_bad_schema url = is_external_link url := by
  cases url with
  | nil => rfl
  | cons first rest =>
    unfold is_bad_schema is_external_link
    rcases Decidable.em ((first :: rest).take 2 = [47, 47]) with h2 | h2
    · simp [h2]
    · rcases Decidable.em ((97 ≤ first ∧ first ≤ 122) ∨ (65 ≤ first ∧ first ≤ 90)) with ha | ha
      · simp [h2, ha, Or.comm.mp ha]
      · have ha' : ¬ ((65 ≤ first ∧ first ≤ 90) ∨ (97 ≤ first ∧ first ≤ 122)) := by
          intro h; exact ha (Or.comm.mp h)
        simp [h2, ha, ha']

/-- Characters allowed after the first one in a URL scheme, per the spec's
regex `[A-Za-z0-9+\-.]`. -/
def isSchemeChar (c : Nat) : Prop :=
  (97 ≤ c ∧ c ≤ 122) ∨ (65 ≤ c ∧ c ≤ 90) ∨ (48 ≤ c ∧ c ≤ 57) ∨ c = 43 ∨ c = 45 ∨ c = 46

/-- ASCII letter, per the spec's regex `[A-Za-z]`. -/
def isAsciiLetter (c : Nat) : Prop := (65 ≤ c ∧ c ≤ 90) ∨ (97 ≤ c ∧ c ≤ 122)

/-- Spec-side classification, written from the spec's words (section 4.2): a
raw href is external iff it begins with `//` or with an ASCII-letter-starting
scheme followed by a colon, scheme = `[A-Za-z][A-Za-z0-9+\-.]*:`. -/
def externalSpec (url : List Nat) : Prop :=
  url.take 2 = [47, 47] ∨
  ∃ a t rest, url = a :: (t ++ 58 :: rest) ∧ isAsciiLetter a ∧ ∀ c ∈ t, isSchemeChar c

theorem schemeLoop_iff (l : List Nat) :
    schemeLoop l = true ↔ ∃ t rest, l = t ++ 58 :: rest ∧ ∀ c ∈ t, isSchemeChar c := by
  induction l with
  | nil =>
    simp only [schemeLoop]
    constructor
    · intro h; exact absurd h (by decide)
    · rintro ⟨t, rest, h, -⟩
      exact absurd h.symm (List.append_ne_nil_of_right_ne_nil t (List.cons_ne_nil 58 rest))
  | cons c l ih =>
    rcases Decidable.em ((97 ≤ c ∧ c ≤ 122) ∨ (65 ≤ c ∧ c ≤ 90) ∨ (48 ≤ c ∧ c ≤ 57) ∨ c = 43 ∨ c = 45 ∨ c = 46) with hc | hc
    · have hc58 : c ≠ 58 := by
        rintro rfl
        rcases hc with ⟨h1, h2⟩ | ⟨h1, h2⟩ | ⟨h1, h2⟩ | h | h | h <;> omega
      rw [show schemeLoop (c :: l) = schemeLoop l by simp [schemeLoop, hc], ih]
      constructor
      · rintro ⟨t, rest, rfl, ht⟩
        exact ⟨c :: t, rest, rfl, by
          intro x hx
          rcases List.mem_cons.mp hx with rfl | hx
          · exact hc
          · exact ht x hx⟩
      · rintro ⟨t, rest, h, ht⟩
        cases t with
        | nil => simp at h; exact absurd h.1 hc58
        | cons t0 ts =>
          simp only [List.cons_append, List.cons.injEq] at h
          exact ⟨ts, rest, h.2, fun x hx => ht x (List.mem_cons_of_mem t0 hx)⟩
    · rw [show schemeLoop (c :: l) = decide (c = 58) by simp [schemeLoop, hc]]
      constructor
      · intro h
        have hc58 : c = 58 := of_decide_eq_true h
        exact ⟨[], l, by rw [hc58]; rfl, by intro x hx; simp at hx⟩
      · rintro ⟨t, rest, h, ht⟩
        cases t with
        | nil =>
          simp only [List.nil_append, List.cons.injEq] at h
          simp [h.1]
        | cons t0 ts =>
          simp only [List.cons_append, List.cons.injEq] at h
          exact absurd (h.1 ▸ ht t0 (List.mem_cons_self t0 ts)) hc

/-- C5: `is_external_link(u)` returns true iff `u` begins with `//` or with a
prefix matching `[A-Za-z][A-Za-z0-9+\-.]*:`; in particular it returns false on
the empty string and on `http`. -/
theorem is_external_link_spec :
    (∀ url : List Nat, is_external_link url = true ↔ externalSpec url) ∧
    is_external_link [] = false ∧
    is_external_link (chl ['h', 't', 't', 'p']) = false := by
  refine ⟨?_, rfl, by decide⟩
  intro url
  cases url with
  | nil =>
    simp only [is_external_link, externalSpec]
    constructor
    · intro h; exact absurd h (by decide)
    · rintro (h | ⟨a, t, rest, h, -⟩)
      · exact absurd h (by decide)
      · exact absurd h (by simp)
  | cons first rest =>
    have hres : is_external_link (first :: rest) =
        (if (first :: rest).take 2 = [47, 47] then true
         else if ¬ ((65 ≤ first ∧ first ≤ 90) ∨ (97 ≤ first ∧ first ≤ 122)) then false
         else schemeLoop rest) := rfl
    rcases Decidable.em ((first :: rest).take 2 = [47, 47]) with h2 | h2
    · rw [hres, if_pos h2]
      constructor
      · intro _; exact Or.inl h2
      · intro _; rfl
    · rcases Decidable.em ((65 ≤ first ∧ first ≤ 90) ∨ (97 ≤ first ∧ first ≤ 122)) with ha | ha
      · rw [hres, if_neg h2, if_neg (not_not_intro ha), schemeLoop_iff]
        constructor
        · rintro ⟨t, r, rfl, ht⟩
          exact Or.inr ⟨first, t, r, rfl, ha, ht⟩
        · rintro (h | ⟨a, t, r, h, ha', ht⟩)
          · exact absurd h h2
          · simp only [List.cons.injEq] at h
            exact ⟨t, r, h.2, ht⟩
      · rw [hres, if_neg h2, if_pos ha]
        constructor
        · intro h; exact absurd h (by decide)
        · rintro (h | ⟨a, t, r, h, ha', ht⟩)
          · exact absurd h h2
          · simp only [List.cons.injEq] at h
            exact absurd (h.1 ▸ ha') ha

/-- Index of the last slash byte (47) in `base`; embedding of `base.rfind('/')`. -/
def rfindSlash : List Nat → Option Nat
  | [] => none
  | b :: rest =>
    match rfindSlash rest with
    | some i => some (i + 1)
    | none => if b = 47 then some 0 else none

/-- Embedding of `base.truncate(base.rfind('/').unwrap_or(0))`
(src/html/mod.rs lines 36 and 46). -/
def truncLastSlash (base : List Nat) : List Nat := base.take ((rfindSlash base).getD 0)

/-- Embedding of Rust `str::split('/')` on byte lists: split at every 47,
keeping empty components (so the result is never empty). -/
def splitSlash : List Nat → List (List Nat)
  | [] => [[]]
  | b :: rest =>
    if b = 47 then [] :: splitSlash rest
    else
      match splitSlash rest with
      | c :: cs => (b :: c) :: cs
      | [] => [[b]]

/-- Bytes of the component literal `index.html`. -/
def indexHtmlB : List Nat := chl ['i', 'n', 'd', 'e', 'x', '.', 'h', 't', 'm', 'l']

/-- Bytes of the component literal `index.htm`. -/
def indexHtmB : List Nat := chl ['i', 'n', 'd', 'e', 'x', '.', 'h', 't', 'm']

/-- One iteration of the component loop of `push_and_canonicalize`
(src/html/mod.rs lines 39-55): `n` is the number of slash bytes of the whole path
and `i` the enumeration index, so `i = n` marks the final component.  An
`index.html`/`index.htm` final component, empty components and `.` are
dropped, `..` truncates the base at its last slash, and any other component is
appended behind a slash separator (no separator onto an empty base). -/
def canonStep (n i : Nat) (base c : List Nat) : List Nat :=
  if (c = indexHtmlB ∨ c = indexHtmB) ∧ i = n then base
  else if c = [] ∨ c = [46] then base
  else if c = [46, 46] then truncLastSlash base
  else (if base = [] then [] else base ++ [47]) ++ c

/-- Component loop of `push_and_canonicalize`, folding `canonStep` over the
enumerated components. -/
def canonGo (n : Nat) : Nat → List Nat → List (List Nat) → List Nat
  | _, base, [] => base
  | i, base, c :: cs => canonGo n (i + 1) (canonStep n i base c) cs

/-- Embedding of `push_and_canonicalize` (src/html/mod.rs lines 22-56): an
external path replaces the base verbatim and stops (mod.rs lines 24-27); a
path starting with `/` clears the base; an empty path strips one trailing
slash from the base and stops; otherwise the base is truncated at its last
slash and the path's slash-separated components are folded in. -/
def push_and_canonicalize (base path : List Nat) : List Nat :=
  if is_external_link path then path
  else if path.take 1 = [47] then
    canonGo (path.count 47) 0 [] (splitSlash path)
  else if path = [] then
    (if base.getLast? = some 47 then base.dropLast else base)
  else
    canonGo (path.count 47) 0 (truncLastSlash base) (splitSlash path)

/-- Value of an ASCII hexadecimal digit byte. -/
def hexVal (b : Nat) : Option Nat :=
  if 48 ≤ b ∧ b ≤ 57 then some (b - 48)
  else if 65 ≤ b ∧ b ≤ 70 then some (b - 55)
  else if 97 ≤ b ∧ b ≤ 102 then some (b - 87)
  else none

/-- Embedding of percent-decoding as performed by `percent_decode_str`: a `%`
byte followed by two hex digits decodes to the indicated byte; a `%` not
followed by two hex digits is copied verbatim and scanning resumes right after
it; every other byte is copied unchanged. -/
def percentDecode : List Nat → List Nat
  | [] => []
  | 37 :: h1 :: h2 :: rest =>
    match hexVal h1, hexVal h2 with
    | some a, some b => (16 * a + b) :: percentDecode rest
    | _, _ => 37 :: percentDecode (h1 :: h2 :: rest)
  | b :: rest => b :: percentDecode rest

/-- UTF-8 continuation byte, 0x80-0xBF. -/
def isCont (b : Nat) : Bool := decide (128 ≤ b ∧ b ≤ 191)

/-- Lower bound of the second byte of a three-byte UTF-8 sequence. -/
def utf8Lo2 (b : Nat) : Nat := if b = 224 then 160 else 128

/-- Upper bound of the second byte of a three-byte UTF-8 sequence. -/
def utf8Hi2 (b : Nat) : Nat := if b = 237 then 159 else 191

/-- Lower bound of the second byte of a four-byte UTF-8 sequence. -/
def utf8Lo3 (b : Nat) : Nat := if b = 240 then 144 else 128

/-- Upper bound of the second byte of a four-byte UTF-8 sequence. -/
def utf8Hi3 (b : Nat) : Nat := if b = 244 then 143 else 191

/-- Validity of a byte list as UTF-8 (RFC 3629), the test performed by
`decode_utf8` inside `try_percent_decode`. -/
def isValidUtf8 : List Nat → Bool
  | [] => true
  | b :: rest =>
    if b ≤ 127 then isValidUtf8 rest
    else if 194 ≤ b ∧ b ≤ 223 then
      match rest with
      | c1 :: r => isCont c1 && isValidUtf8 r
      | [] => false
    else if 224 ≤ b ∧ b ≤ 239 then
      match rest with
      | c1 :: c2 :: r => decide (utf8Lo2 b ≤ c1 ∧ c1 ≤ utf8Hi2 b) && isCont c2 && isValidUtf8 r
      | _ => false
    else if 240 ≤ b ∧ b ≤ 244 then
      match rest with
      | c1 :: c2 :: c3 :: r =>
        decide (utf8Lo3 b ≤ c1 ∧ c1 ≤ utf8Hi3 b) && isCont c2 && isCont c3 && isValidUtf8 r
      | _ => false
    else false

/-- Embedding of `try_percent_decode` (src/html/mod.rs lines 155-160):
percent-decode and keep the result when it is valid UTF-8, otherwise return
the input unchanged. -/
def tryPercentDecode (input : List Nat) : List Nat :=
  if isValidUtf8 (percentDecode input) then percentDecode input else input

/-- Embedding of `Href::without_anchor` (src/html/mod.rs lines 165-175): cut
at the first `#` byte (35) when present. -/
def without_anchor (s : List Nat) : List Nat := s.takeWhile (fun b => !(b == 35))

/-- Embedding of `Document::join` (src/html/mod.rs lines 285-309).  `docHref`
is the document's canonical href; for an index document a trailing slash is
pushed first.  The relative href is cut at the first `?` or `#` before
percent-decoding and canonicalization; with `preserveAnchor`, a raw fragment
of length at least two (counting its `#`) is percent-decoded and appended
(mod.rs line 304). -/
def joinHref (docHref : List Nat) (isIndexHtml preserveAnchor : Bool) (relHref : List Nat) :
    List Nat :=
  let qsStart := relHref.findIdx (fun b => b == 63 || b == 35)
  let anchorStart := relHref.findIdx (fun b => b == 35)
  let base := docHref ++ (if isIndexHtml then [47] else [])
  let href := push_and_canonicalize base (tryPercentDecode (relHref.take qsStart))
  if preserveAnchor ∧ (relHref.drop anchorStart).length > 1 then
    href ++ tryPercentDecode (relHref.drop anchorStart)
  else href

/-- C4: `Document::join` matches the spec's canonicalization seed table on
every row: `2019/` with `../feed.xml` gives `feed.xml`; `contact.html` with
`contact.html` gives `contact.html`; the empty base with
`./2014/article.html` gives `2014/article.html`; `foo/bar.html` with
`index.html` gives `foo`; `foo/bar.html` with `index.html/baz.html` gives
`foo/index.html/baz.html`; `./foo/` with the empty href gives `./foo`;
`x.html` with the external `http://y.z` gives `http://y.z` verbatim (the
`is_external_link` short-circuit of `push_and_canonicalize`); the index
document `platforms/python/troubleshooting/` with `../../ruby?q=1#anchor` and
anchor preservation gives `platforms/ruby#anchor`; `a.html` with
`/locations/troms%C3%B8` gives `locations/tromsø` (UTF-8 bytes 195, 184). -/
theorem join_matches_seed_table :
    joinHref (chl ['2', '0', '1', '9', '/']) false false
        (chl ['.', '.', '/', 'f', 'e', 'e', 'd', '.', 'x', 'm', 'l'])
      = chl ['f', 'e', 'e', 'd', '.', 'x', 'm', 'l'] ∧
    joinHref (chl ['c', 'o', 'n', 't', 'a', 'c', 't', '.', 'h', 't', 'm', 'l']) false false
        (chl ['c', 'o', 'n', 't', 'a', 'c', 't', '.', 'h', 't', 'm', 'l'])
      = chl ['c', 'o', 'n', 't', 'a', 'c', 't', '.', 'h', 't', 'm', 'l'] ∧
    joinHref [] false false
        (chl ['.', '/', '2', '0', '1', '4', '/', 'a', 'r', 't', 'i', 'c', 'l', 'e', '.', 'h', 't', 'm', 'l'])
      = chl ['2', '0', '1', '4', '/', 'a', 'r', 't', 'i', 'c', 'l', 'e', '.', 'h', 't', 'm', 'l'] ∧
    joinHref (chl ['f', 'o', 'o', '/', 'b', 'a', 'r', '.', 'h', 't', 'm', 'l']) false false
        (chl ['i', 'n', 'd', 'e', 'x', '.', 'h', 't', 'm', 'l'])
      = chl ['f', 'o', 'o'] ∧
    joinHref (chl ['f', 'o', 'o', '/', 'b', 'a', 'r', '.', 'h', 't', 'm', 'l']) false false
        (chl ['i', 'n', 'd', 'e', 'x', '.', 'h', 't', 'm', 'l', '/', 'b', 'a', 'z', '.', 'h', 't', 'm', 'l'])
      = chl ['f', 'o', 'o', '/', 'i', 'n', 'd', 'e', 'x', '.', 'h', 't', 'm', 'l', '/', 'b', 'a', 'z', '.', 'h', 't', 'm', 'l'] ∧
    joinHref (chl ['.', '/', 'f', 'o', 'o', '/']) false false [] = chl ['.', '/', 'f', 'o', 'o'] ∧
    joinHref (chl ['x', '.', 'h', 't', 'm', 'l']) false false
        (chl ['h', 't', 't', 'p', ':', '/', '/', 'y', '.', 'z'])
      = chl ['h', 't', 't', 'p', ':', '/', '/', 'y', '.', 'z'] ∧
    joinHref (chl ['p', 'l', 'a', 't', 'f', 'o', 'r', 'm', 's', '/', 'p', 'y', 't', 'h', 'o', 'n', '/', 't', 'r', 'o', 'u', 'b', 'l', 'e', 's', 'h', 'o', 'o', 't', 'i', 'n', 'g'])
        true true
        (chl ['.', '.', '/', '.', '.', '/', 'r', 'u', 'b', 'y', '?', 'q', '=', '1', '#', 'a', 'n', 'c', 'h', 'o', 'r'])
      = chl ['p', 'l', 'a', 't', 'f', 'o', 'r', 'm', 's', '/', 'r', 'u', 'b', 'y', '#', 'a', 'n', 'c', 'h', 'o', 'r'] ∧
    joinHref (chl ['a', '.', 'h', 't', 'm', 'l']) false false
        (chl ['/', 'l', 'o', 'c', 'a', 't', 'i', 'o', 'n', 's', '/', 't', 'r', 'o', 'm', 's', '%', 'C', '3', '%', 'B', '8'])
      = chl ['l', 'o', 'c', 'a', 't', 'i', 'o', 'n', 's', '/', 't', 'r', 'o', 'm', 's'] ++ [195, 184] := by
  refine ⟨?_, ?_, ?_, ?_, ?_, ?_, ?_, ?_, ?_⟩ <;> decide

/-- C7 counterexample: `push_and_canonicalize` is not idempotent against the
same base.  With base `2019/` and href `../feed.xml` the first application
yields `feed.xml`; re-canonicalizing `feed.xml` against `2019/` prepends the
base directory again and yields `2019/feed.xml`. -/
theorem push_and_canonicalize_not_idempotent :
    push_and_canonicalize (chl ['2', '0', '1', '9', '/'])
        (push_and_canonicalize (chl ['2', '0', '1', '9', '/'])
          (chl ['.', '.', '/', 'f', 'e', 'e', 'd', '.', 'x', 'm', 'l']))
      = chl ['2', '0', '1', '9', '/', 'f', 'e', 'e', 'd', '.', 'x', 'm', 'l'] ∧
    chl ['2', '0', '1', '9', '/', 'f', 'e', 'e', 'd', '.', 'x', 'm', 'l'] ≠
      chl ['f', 'e', 'e', 'd', '.', 'x', 'm', 'l'] :=
  ⟨by decide, by decide⟩

/-- Slash-joined rendering of a component list; on slash-free components it is
a section of `splitSlash`. -/
def joinSlash : List (List Nat) → List Nat
  | [] => []
  | [c] => c
  | c :: cs => c ++ 47 :: joinSlash cs

/-- Shape of the components that `push_and_canonicalize` can leave in its
output: nonempty, not `.`, not `..`, slash-free. -/
def GoodComp (c : List Nat) : Prop := c ≠ [] ∧ c ≠ [46] ∧ c ≠ [46, 46] ∧ ¬ (47 ∈ c)

theorem splitSlash_ne_nil (l : List Nat) : splitSlash l ≠ [] := by
  cases l with
  | nil => simp [splitSlash]
  | cons b rest =>
    unfold splitSlash
    rcases Decidable.em (b = 47) with hb | hb
    · simp [hb]
    · rcases hc : splitSlash rest with _ | ⟨c, cs⟩ <;> simp [hb, hc]

theorem splitSlash_slashFree (l : List Nat) : ∀ c ∈ splitSlash l, ¬ (47 ∈ c) := by
  induction l with
  | nil => intro c hc; simp [splitSlash] at hc; simp [hc]
  | cons b rest ih =>
    intro c hc
    unfold splitSlash at hc
    rcases Decidable.em (b = 47) with hb | hb
    · rw [if_pos hb] at hc
      rcases List.mem_cons.mp hc with rfl | hc
      · simp
      · exact ih c hc
    · rw [if_neg hb] at hc
      rcases hs : splitSlash rest with _ | ⟨c0, cs⟩
      · exact absurd hs (splitSlash_ne_nil rest)
      · rw [hs] at hc
        rcases List.mem_cons.mp hc with rfl | hc
        · intro hmem
          rcases List.mem_cons.mp hmem with h47 | h47
          · exact hb h47.symm
          · exact ih c0 (hs ▸ List.mem_cons_self c0 cs) h47
        · exact ih c (hs ▸ List.mem_cons_of_mem c0 hc)

theorem splitSlash_of_slashFree (c : List Nat) (hc : ¬ (47 ∈ c)) : splitSlash c = [c] := by
  induction c with
  | nil => rfl
  | cons b r ih =>
    have hb : b ≠ 47 := fun h => hc (h ▸ List.mem_cons_self b r)
    have hr : ¬ (47 ∈ r) := fun h => hc (List.mem_cons_of_mem b h)
    unfold splitSlash
    rw [if_neg hb, ih hr]

theorem splitSlash_cons (b : Nat) (rest : List Nat) :
    splitSlash (b :: rest) =
      if b = 47 then [] :: splitSlash rest
      else
        match splitSlash rest with
        | c :: cs => (b :: c) :: cs
        | [] => [[b]] := rfl

theorem splitSlash_append_slash (c t : List Nat) (hc : ¬ (47 ∈ c)) :
    splitSlash (c ++ 47 :: t) = c :: splitSlash t := by
  induction c with
  | nil => simp [splitSlash]
  | cons b r ih =>
    have hb : b ≠ 47 := fun h => hc (h ▸ List.mem_cons_self b r)
    have hr : ¬ (47 ∈ r) := fun h => hc (List.mem_cons_of_mem b h)
    rw [List.cons_append, splitSlash_cons, if_neg hb, ih hr]

theorem splitSlash_joinSlash (cs : List (List Nat)) (hne : cs ≠ [])
    (hfree : ∀ c ∈ cs, ¬ (47 ∈ c)) : splitSlash (joinSlash cs) = cs := by
  induction cs with
  | nil => exact absurd rfl hne
  | cons c cs ih =>
    cases cs with
    | nil => exact splitSlash_of_slashFree c (hfree c (List.mem_cons_self c []))
    | cons c2 cs2 =>
      have hc : ¬ (47 ∈ c) := hfree c (List.mem_cons_self c (c2 :: cs2))
      have : joinSlash (c :: c2 :: cs2) = c ++ 47 :: joinSlash (c2 :: cs2) := rfl
      rw [this, splitSlash_append_slash c (joinSlash (c2 :: cs2)) hc,
        ih (by simp) (fun x hx => hfree x (List.mem_cons_of_mem c hx))]

theorem rfindSlash_append (l1 l2 : List Nat) :
    rfindSlash (l1 ++ l2) =
      (rfindSlash l2).elim (rfindSlash l1) (fun i => some (l1.length + i)) := by
  induction l1 with
  | nil => cases h2 : rfindSlash l2 <;> simp [h2, rfindSlash]
  | cons b l1 ih =>
    cases h2 : rfindSlash l2 with
    | some i =>
      rw [h2] at ih
      simp only [List.cons_append]
      unfold rfindSlash
      rw [ih]
      simp [Nat.add_assoc, Nat.add_comm 1 i]
    | none =>
      rw [h2] at ih
      simp only [List.cons_append]
      unfold rfindSlash
      rw [ih]
      cases h1 : rfindSlash l1 <;> simp [h1, h2, rfindSlash]

theorem rfindSlash_eq_none (l : List Nat) (hl : ¬ (47 ∈ l)) : rfindSlash l = none := by
  induction l with
  | nil => rfl
  | cons b r ih =>
    have hb : b ≠ 47 := fun h => hl (h ▸ List.mem_cons_self b r)
    have hr : ¬ (47 ∈ r) := fun h => hl (List.mem_cons_of_mem b h)
    unfold rfindSlash
    rw [ih hr, if_neg hb]

theorem rfindSlash_last (l1 l2 : List Nat) (h2 : ¬ (47 ∈ l2)) :
    rfindSlash (l1 ++ 47 :: l2) = some l1.length := by
  rw [rfindSlash_append]
  have h0 : rfindSlash (47 :: l2) = some 0 := by
    unfold rfindSlash
    rw [rfindSlash_eq_none l2 h2]
    rfl
  rw [h0]
  simp

theorem joinSlash_concat (ds : List (List Nat)) (c : List Nat) :
    joinSlash (ds ++ [c]) = if ds = [] then c else joinSlash ds ++ 47 :: c := by
  induction ds with
  | nil => rfl
  | cons e ds ih =>
    cases ds with
    | nil => rfl
    | cons f ds2 =>
      have h1 : joinSlash (e :: f :: (ds2 ++ [c])) = e ++ 47 :: joinSlash (f :: (ds2 ++ [c])) := rfl
      have h2 : joinSlash (f :: (ds2 ++ [c])) = joinSlash ((f :: ds2) ++ [c]) := by
        rw [List.cons_append]
      simp only [List.cons_append]
      rw [h1, h2, ih, if_neg (by simp), if_neg (by simp)]
      have h3 : joinSlash (e :: f :: ds2) = e ++ 47 :: joinSlash (f :: ds2) := rfl
      rw [h3]
      simp

theorem joinSlash_ne_nil (c : List Nat) (cs : List (List Nat)) (hc : c ≠ []) :
    joinSlash (c :: cs) ≠ [] := by
  cases cs with
  | nil => exact hc
  | cons c2 cs2 => simp [joinSlash]

theorem truncLastSlash_joinSlash (cs : List (List Nat)) (hfree : ∀ c ∈ cs, ¬ (47 ∈ c)) :
    truncLastSlash (joinSlash cs) = joinSlash cs.dropLast := by
  rcases List.eq_nil_or_concat cs with rfl | ⟨ds, d, rfl⟩
  · rfl
  · simp only [List.concat_eq_append] at hfree ⊢
    have hd : ¬ (47 ∈ d) := hfree d (by simp)
    cases ds with
    | nil =>
      simp only [List.nil_append]
      unfold truncLastSlash
      rw [show joinSlash [d] = d from rfl, rfindSlash_eq_none d hd]
      simp [joinSlash]
    | cons e ds2 =>
      rw [joinSlash_concat (e :: ds2) d, if_neg (by simp)]
      unfold truncLastSlash
      rw [rfindSlash_last (joinSlash (e :: ds2)) d hd]
      have hdrop : ((e :: ds2) ++ [d]).dropLast = e :: ds2 := List.dropLast_concat
      simp only [Option.getD_some, hdrop]
      rw [List.take_left]

theorem count47_joinSlash (cs : List (List Nat)) (hne : cs ≠ [])
    (hfree : ∀ c ∈ cs, ¬ (47 ∈ c)) : (joinSlash cs).count 47 = cs.length - 1 := by
  induction cs with
  | nil => exact absurd rfl hne
  | cons c cs ih =>
    cases cs with
    | nil =>
      have : joinSlash [c] = c := rfl
      rw [this, List.count_eq_zero.mpr (hfree c (List.mem_cons_self c []))]
      rfl
    | cons c2 cs2 =>
      have h1 : joinSlash (c :: c2 :: cs2) = c ++ 47 :: joinSlash (c2 :: cs2) := rfl
      rw [h1, List.count_append, List.count_cons_self,
        List.count_eq_zero.mpr (hfree c (List.mem_cons_self c (c2 :: cs2))),
        ih (by simp) (fun x hx => hfree x (List.mem_cons_of_mem c hx))]
      simp only [List.length_cons]
      omega

theorem joinSlash_cons_decomp (c : List Nat) (cs : List (List Nat)) :
    ∃ t, joinSlash (c :: cs) = c ++ t := by
  cases cs with
  | nil => exact ⟨[], (List.append_nil c).symm⟩
  | cons c2 cs2 => exact ⟨47 :: joinSlash (c2 :: cs2), rfl⟩

theorem canonGo_good (n : Nat) (cs : List (List Nat)) :
    ∀ (i : Nat) (bs : List (List Nat)), (∀ c ∈ bs, GoodComp c) → (∀ c ∈ cs, ¬ (47 ∈ c)) →
      ∃ bs', canonGo n i (joinSlash bs) cs = joinSlash bs' ∧ ∀ c ∈ bs', GoodComp c := by
  induction cs with
  | nil => intro i bs hbs _; exact ⟨bs, rfl, hbs⟩
  | cons c cs ih =>
    intro i bs hbs hfree
    have hcs : ∀ x ∈ cs, ¬ (47 ∈ x) := fun x hx => hfree x (List.mem_cons_of_mem c hx)
    have hcfree : ¬ (47 ∈ c) := hfree c (List.mem_cons_self c cs)
    have hstep : canonGo n i (joinSlash bs) (c :: cs) =
        canonGo n (i + 1) (canonStep n i (joinSlash bs) c) cs := rfl
    rw [hstep]
    unfold canonStep
    rcases Decidable.em ((c = indexHtmlB ∨ c = indexHtmB) ∧ i = n) with g1 | g1
    · rw [if_pos g1]; exact ih (i + 1) bs hbs hcs
    · rw [if_neg g1]
      rcases Decidable.em (c = [] ∨ c = [46]) with g2 | g2
      · rw [if_pos g2]; exact ih (i + 1) bs hbs hcs
      · rw [if_neg g2]
        rcases Decidable.em (c = [46, 46]) with g3 | g3
        · rw [if_pos g3, truncLastSlash_joinSlash bs (fun x hx => (hbs x hx).2.2.2)]
          exact ih (i + 1) bs.dropLast
            (fun x hx => hbs x ((List.dropLast_sublist bs).subset hx)) hcs
        · rw [if_neg g3]
          have hgc : GoodComp c :=
            ⟨fun h => g2 (Or.inl h), fun h => g2 (Or.inr h), g3, hcfree⟩
          have hbs' : ∀ x ∈ bs ++ [c], GoodComp x := by
            intro x hx
            rcases List.mem_append.mp hx with hx | hx
            · exact hbs x hx
            · rw [List.mem_singleton.mp hx]; exact hgc
          have hrw : (if joinSlash bs = [] then [] else joinSlash bs ++ [47]) ++ c =
              joinSlash (bs ++ [c]) := by
            cases bs with
            | nil => simp [joinSlash]
            | cons b bs2 =>
              rw [if_neg (joinSlash_ne_nil b bs2 (hbs b (List.mem_cons_self b bs2)).1),
                joinSlash_concat (b :: bs2) c, if_neg (by simp)]
              simp
          rw [hrw]
          exact ih (i + 1) (bs ++ [c]) hbs' hcs

theorem canonGo_rejoin (n : Nat) (cs : List (List Nat)) :
    ∀ (i : Nat) (bs : List (List Nat)), (∀ c ∈ bs, GoodComp c) → (∀ c ∈ cs, GoodComp c) →
      i + cs.length = n + 1 →
      (∀ d, cs.getLast? = some d → d ≠ indexHtmlB ∧ d ≠ indexHtmB) →
      canonGo n i (joinSlash bs) cs = joinSlash (bs ++ cs) := by
  induction cs with
  | nil => intro i bs _ _ _ _; rw [List.append_nil]; rfl
  | cons c cs ih =>
    intro i bs hbs hcs hlen hlast
    have hgc : GoodComp c := hcs c (List.mem_cons_self c cs)
    have hstep : canonGo n i (joinSlash bs) (c :: cs) =
        canonGo n (i + 1) (canonStep n i (joinSlash bs) c) cs := rfl
    rw [hstep]
    unfold canonStep
    have g1 : ¬ ((c = indexHtmlB ∨ c = indexHtmB) ∧ i = n) := by
      rintro ⟨hidx, rfl⟩
      have hcs0 : cs = [] := by
        simp only [List.length_cons] at hlen
        have : cs.length = 0 := by omega
        exact List.length_eq_zero.mp this
      subst hcs0
      have := hlast c rfl
      rcases hidx with h | h
      · exact this.1 h
      · exact this.2 h
    rw [if_neg g1, if_neg (by push_neg; exact ⟨hgc.1, hgc.2.1⟩), if_neg hgc.2.2.1]
    have hrw : (if joinSlash bs = [] then [] else joinSlash bs ++ [47]) ++ c =
        joinSlash (bs ++ [c]) := by
      cases bs with
      | nil => simp [joinSlash]
      | cons b bs2 =>
        rw [if_neg (joinSlash_ne_nil b bs2 (hbs b (List.mem_cons_self b bs2)).1),
          joinSlash_concat (b :: bs2) c, if_neg (by simp)]
        simp
    rw [hrw]
    cases cs with
    | nil => rfl
    | cons c2 cs2 =>
      have hbs' : ∀ x ∈ bs ++ [c], GoodComp x := by
        intro x hx
        rcases List.mem_append.mp hx with hx | hx
        · exact hbs x hx
        · rw [List.mem_singleton.mp hx]; exact hgc
      have := ih (i + 1) (bs ++ [c]) hbs'
        (fun x hx => hcs x (List.mem_cons_of_mem c hx))
        (by simp only [List.length_cons] at hlen ⊢; omega)
        (fun d hd => hlast d (by rw [List.getLast?_cons_cons]; exact hd))
      rw [this, List.append_assoc]
      rfl

/-- C7 (amended): the spec's P1 idempotence equation fails in general (see the
counterexample); it does hold for the root document, i.e. the empty base,
provided the canonical result does not end in an `index.html`/`index.htm`
component: `push_and_canonicalize [] (push_and_canonicalize [] h) =
push_and_canonicalize [] h`. -/
theorem push_and_canonicalize_idempotent_root (h : List Nat)
    (hidx : (splitSlash (push_and_canonicalize [] h)).getLastD [] ≠ indexHtmlB ∧
      (splitSlash (push_and_canonicalize [] h)).getLastD [] ≠ indexHtmB) :
    push_and_canonicalize [] (push_and_canonicalize [] h) = push_and_canonicalize [] h := by
  have hres : ∀ b p : List Nat, push_and_canonicalize b p =
      (if is_external_link p = true then p
       else if p.take 1 = [47] then canonGo (p.count 47) 0 [] (splitSlash p)
       else if p = [] then (if b.getLast? = some 47 then b.dropLast else b)
       else canonGo (p.count 47) 0 (truncLastSlash b) (splitSlash p)) :=
    fun b p => rfl
  cases hext : is_external_link h with
  | true =>
    have hr : push_and_canonicalize [] h = h := by rw [hres [] h, if_pos hext]
    rw [hr]
    exact hr
  | false =>
  have hextn : ¬ (is_external_link h = true) := by rw [hext]; exact Bool.false_ne_true
  have hgood : ∃ bs, push_and_canonicalize [] h = joinSlash bs ∧ ∀ c ∈ bs, GoodComp c := by
    rw [hres [] h, if_neg hextn]
    rcases Decidable.em (h.take 1 = [47]) with h1 | h1
    · rw [if_pos h1]
      exact canonGo_good (h.count 47) (splitSlash h) 0 []
        (by intro c hc; simp at hc) (splitSlash_slashFree h)
    · rw [if_neg h1]
      rcases Decidable.em (h = []) with h0 | h0
      · rw [if_pos h0]
        exact ⟨[], rfl, by intro c hc; simp at hc⟩
      · rw [if_neg h0]
        have : truncLastSlash ([] : List Nat) = [] := rfl
        rw [this]
        exact canonGo_good (h.count 47) (splitSlash h) 0 []
          (by intro c hc; simp at hc) (splitSlash_slashFree h)
  obtain ⟨bs, hr, hbs⟩ := hgood
  rw [hr] at hidx ⊢
  cases bs with
  | nil => rfl
  | cons c rest =>
    have hcne : c ≠ [] := (hbs c (List.mem_cons_self c rest)).1
    have hcfree : ¬ (47 ∈ c) := (hbs c (List.mem_cons_self c rest)).2.2.2
    have hfree : ∀ x ∈ c :: rest, ¬ (47 ∈ x) := fun x hx => (hbs x hx).2.2.2
    have hsplit : splitSlash (joinSlash (c :: rest)) = c :: rest :=
      splitSlash_joinSlash (c :: rest) (by simp) hfree
    obtain ⟨t, ht⟩ := joinSlash_cons_decomp c rest
    have htake : (joinSlash (c :: rest)).take 1 ≠ [47] := by
      intro hcon
      rw [ht] at hcon
      cases c with
      | nil => exact hcne rfl
      | cons b c2 =>
        have hb : b ≠ 47 := fun hb47 => hcfree (hb47 ▸ List.mem_cons_self b c2)
        simp only [List.cons_append, List.take_succ_cons, List.take_zero] at hcon
        simp at hcon
        exact hb hcon
    have hne : joinSlash (c :: rest) ≠ [] := joinSlash_ne_nil c rest hcne
    cases hext2 : is_external_link (joinSlash (c :: rest)) with
    | true => rw [hres [] (joinSlash (c :: rest)), if_pos hext2]
    | false =>
    have hext2n : ¬ (is_external_link (joinSlash (c :: rest)) = true) := by
      rw [hext2]; exact Bool.false_ne_true
    rw [hres [] (joinSlash (c :: rest)), if_neg hext2n, if_neg htake, if_neg hne,
      show truncLastSlash ([] : List Nat) = [] from rfl, hsplit,
      count47_joinSlash (c :: rest) (by simp) hfree]
    have hlast : ∀ d, (c :: rest).getLast? = some d → d ≠ indexHtmlB ∧ d ≠ indexHtmB := by
      intro d hd
      have : (c :: rest).getLastD [] = d := by
        rw [List.getLastD_eq_getLast?, hd]; rfl
      rw [hsplit, this] at hidx
      exact hidx
    have := canonGo_rejoin ((c :: rest).length - 1) (c :: rest) 0 []
      (by intro x hx; simp at hx) hbs (by simp) hlast
    rw [show joinSlash ([] : List (List Nat)) = [] from rfl] at this
    rw [this]
    rfl

/-- Witness for the amended C7 theorem at the concrete href `a/b/../c`, whose
canonical form `a/c` does not end in an index component. -/
theorem push_and_canonicalize_idempotent_root_witness :
    push_and_canonicalize []
        (push_and_canonicalize [] (chl ['a', '/', 'b', '/', '.', '.', '/', 'c']))
      = push_and_canonicalize [] (chl ['a', '/', 'b', '/', '.', '.', '/', 'c']) :=
  push_and_canonicalize_idempotent_root (chl ['a', '/', 'b', '/', '.', '.', '/', 'c'])
    ⟨by decide, by decide⟩

/-- Unicode `White_Space` test, the predicate behind Rust's
`char::is_whitespace` and hence behind `str::trim` and
`str::split_whitespace` as used by `ParagraphWalker::update`
(src/paragraph.rs lines 21-27). -/
def rustIsWhitespace (c : Char) : Bool :=
  decide (c.toNat = 0x9 ∨ c.toNat = 0xA ∨ c.toNat = 0xB ∨ c.toNat = 0xC ∨ c.toNat = 0xD ∨
    c.toNat = 0x20 ∨ c.toNat = 0x85 ∨ c.toNat = 0xA0 ∨ c.toNat = 0x1680 ∨
    (0x2000 ≤ c.toNat ∧ c.toNat ≤ 0x200A) ∨ c.toNat = 0x2028 ∨ c.toNat = 0x2029 ∨
    c.toNat = 0x202F ∨ c.toNat = 0x205F ∨ c.toNat = 0x3000)

/-- Embedding of `str::trim`: drop Unicode whitespace from both ends. -/
def trimRust (l : List Char) : List Char :=
  ((l.dropWhile rustIsWhitespace).reverse.dropWhile rustIsWhitespace).reverse

/-- Accumulator pass of `str::split_whitespace`; `acc` holds the current word
reversed.  Empty words are never produced. -/
def splitWsAux : List Char → List Char → List (List Char)
  | [], acc => if acc = [] then [] else [acc.reverse]
  | c :: rest, acc =>
    if rustIsWhitespace c then
      if acc = [] then splitWsAux rest [] else acc.reverse :: splitWsAux rest []
    else splitWsAux rest (c :: acc)

/-- Embedding of `str::split_whitespace`. -/
def splitWs (l : List Char) : List (List Char) := splitWsAux l []

/-- UTF-8 encoding of one character. -/
def utf8Char (c : Char) : List Nat :=
  if c.toNat < 128 then [c.toNat]
  else if c.toNat < 2048 then [192 + c.toNat / 64, 128 + c.toNat % 64]
  else if c.toNat < 65536 then
    [224 + c.toNat / 4096, 128 + c.toNat / 64 % 64, 128 + c.toNat % 64]
  else [240 + c.toNat / 262144, 128 + c.toNat / 4096 % 64, 128 + c.toNat / 64 % 64,
    128 + c.toNat % 64]

/-- UTF-8 encoding of a character list (`str::as_bytes`). -/
def utf8Encode (l : List Char) : List Nat := (l.map utf8Char).flatten

/-- Embedding of `ParagraphHasher::update_raw` (src/paragraph.rs lines 39-41).
The blake3 hasher state is modeled by the byte sequence fed so far: blake3 is
an external primitive and the claims concern exactly which bytes are hashed,
so the digest is represented by those bytes. -/
def update_raw (state : List Nat) (text : List Char) : List Nat := state ++ utf8Encode text

/-- Embedding of `ParagraphWalker::update` (src/paragraph.rs lines 21-27):
iterate over `text.trim().split_whitespace()` and feed each nonempty word,
itself trimmed, to `update_raw`. -/
def walkerUpdate (state : List Nat) (text : List Char) : List Nat :=
  (splitWs (trimRust text)).foldl
    (fun st word => if word ≠ [] then update_raw st (trimRust word) else st) state

/-- Embedding of `ParagraphHasher::finish_paragraph` (src/paragraph.rs lines
43-49): return the digest of the fed bytes and reset the state. -/
def finish_paragraph (state : List Nat) : List Nat × List Nat := (state, [])

/-- Digest produced by feeding one paragraph text through `update` and then
calling `finish_paragraph` on a fresh hasher. -/
def paragraphDigest (text : List Char) : List Nat :=
  (finish_paragraph (walkerUpdate [] text)).1

/-- Claim-side digest input, written from the spec's words: exactly the bytes
of the text that are not ASCII whitespace (space, tab, CR, LF), in order. -/
def asciiFilteredBytes (text : List Char) : List Nat :=
  (utf8Encode text).filter (fun b => !(b == 32 || b == 9 || b == 13 || b == 10))

theorem utf8Encode_append (a b : List Char) :
    utf8Encode (a ++ b) = utf8Encode a ++ utf8Encode b := by
  simp [utf8Encode]

theorem splitWsAux_join (l : List Char) :
    ∀ acc, (splitWsAux l acc).flatten = acc.reverse ++ l.filter (fun c => !rustIsWhitespace c) := by
  induction l with
  | nil =>
    intro acc
    rcases Decidable.em (acc = []) with h | h
    · subst h; simp [splitWsAux]
    · simp [splitWsAux, h]
  | cons c rest ih =>
    intro acc
    rcases hw : rustIsWhitespace c with _ | _
    · have : splitWsAux (c :: rest) acc = splitWsAux rest (c :: acc) := by
        simp [splitWsAux, hw]
      rw [this, ih (c :: acc)]
      simp [hw]
    · rcases Decidable.em (acc = []) with h | h
      · subst h
        have : splitWsAux (c :: rest) [] = splitWsAux rest [] := by simp [splitWsAux, hw]
        rw [this, ih []]
        simp [hw]
      · have : splitWsAux (c :: rest) acc = acc.reverse :: splitWsAux rest [] := by
          simp [splitWsAux, hw, h]
        rw [this]
        simp only [List.flatten_cons]
        rw [ih []]
        simp [hw]

theorem splitWsAux_words (l : List Char) :
    ∀ acc w, (∀ c ∈ acc, rustIsWhitespace c = false) → w ∈ splitWsAux l acc →
      w ≠ [] ∧ ∀ c ∈ w, rustIsWhitespace c = false := by
  induction l with
  | nil =>
    intro acc w hacc hw
    rcases Decidable.em (acc = []) with h | h
    · rw [show splitWsAux [] acc = [] by simp [splitWsAux, h]] at hw
      simp at hw
    · rw [show splitWsAux [] acc = [acc.reverse] by simp [splitWsAux, h]] at hw
      rw [List.mem_singleton.mp hw]
      exact ⟨by simpa using h, fun c hc => hacc c (List.mem_reverse.mp hc)⟩
  | cons c rest ih =>
    intro acc w hacc hw
    rcases hws : rustIsWhitespace c with _ | _
    · rw [show splitWsAux (c :: rest) acc = splitWsAux rest (c :: acc) by
        simp [splitWsAux, hws]] at hw
      refine ih (c :: acc) w ?_ hw
      intro x hx
      rcases List.mem_cons.mp hx with rfl | hx
      · exact hws
      · exact hacc x hx
    · rcases Decidable.em (acc = []) with h | h
      · rw [show splitWsAux (c :: rest) acc = splitWsAux rest [] by
          simp [splitWsAux, hws, h]] at hw
        exact ih [] w (by intro x hx; simp at hx) hw
      · rw [show splitWsAux (c :: rest) acc = acc.reverse :: splitWsAux rest [] by
          simp [splitWsAux, hws, h]] at hw
        rcases List.mem_cons.mp hw with rfl | hw
        · exact ⟨by simpa using h, fun x hx => hacc x (List.mem_reverse.mp hx)⟩
        · exact ih [] w (by intro x hx; simp at hx) hw

theorem dropWhile_of_wsFree (w : List Char) (hw : ∀ c ∈ w, rustIsWhitespace c = false) :
    w.dropWhile rustIsWhitespace = w := by
  cases w with
  | nil => rfl
  | cons c r =>
    rw [List.dropWhile_cons, if_neg]
    rw [hw c (List.mem_cons_self c r)]
    simp

theorem trimRust_of_wsFree (w : List Char) (hw : ∀ c ∈ w, rustIsWhitespace c = false) :
    trimRust w = w := by
  unfold trimRust
  rw [dropWhile_of_wsFree w hw,
    dropWhile_of_wsFree w.reverse (fun c hc => hw c (List.mem_reverse.mp hc)),
    List.reverse_reverse]

theorem foldl_update_words (pieces : List (List Char)) :
    ∀ st, (∀ w ∈ pieces, w ≠ [] ∧ ∀ c ∈ w, rustIsWhitespace c = false) →
      pieces.foldl (fun st word => if word ≠ [] then update_raw st (trimRust word) else st) st =
        st ++ utf8Encode pieces.flatten := by
  induction pieces with
  | nil => intro st _; simp [utf8Encode]
  | cons w ps ih =>
    intro st hws
    have hw := hws w (List.mem_cons_self w ps)
    have hstep : (w :: ps).foldl
        (fun st word => if word ≠ [] then update_raw st (trimRust word) else st) st =
        ps.foldl (fun st word => if word ≠ [] then update_raw st (trimRust word) else st)
          (update_raw st (trimRust w)) := by
      simp [List.foldl_cons, hw.1]
    rw [hstep, trimRust_of_wsFree w hw.2,
      ih (update_raw st w) (fun x hx => hws x (List.mem_cons_of_mem w hx))]
    simp [update_raw, utf8Encode_append, List.append_assoc]

theorem filter_dropWhile_ws (l : List Char) :
    (l.dropWhile rustIsWhitespace).filter (fun c => !rustIsWhitespace c) =
      l.filter (fun c => !rustIsWhitespace c) := by
  induction l with
  | nil => rfl
  | cons c r ih =>
    rcases hws : rustIsWhitespace c with _ | _
    · rw [List.dropWhile_cons, if_neg (by simp [hws])]
    · rw [List.dropWhile_cons, if_pos (by simp [hws]), ih, List.filter_cons,
        if_neg (by simp [hws])]

theorem filter_trimRust (l : List Char) :
    (trimRust l).filter (fun c => !rustIsWhitespace c) =
      l.filter (fun c => !rustIsWhitespace c) := by
  unfold trimRust
  rw [List.filter_reverse, filter_dropWhile_ws, List.filter_reverse,
    List.reverse_reverse, filter_dropWhile_ws]

/-- C6 counterexample: the walker drops the form-feed character (0x0C), which
is Unicode whitespace but is not one of space, tab, CR, LF, so the digest is
computed over `ab` while the claim's ASCII rule would keep the 0x0C byte. -/
theorem paragraph_digest_formfeed_counterexample :
    paragraphDigest ['a', Char.ofNat 12, 'b'] = [97, 98] ∧
    asciiFilteredBytes ['a', Char.ofNat 12, 'b'] = [97, 12, 98] ∧
    paragraphDigest ['a', Char.ofNat 12, 'b'] ≠ asciiFilteredBytes ['a', Char.ofNat 12, 'b'] :=
  ⟨by decide, by decide, by decide⟩

/-- C6 (amended): feeding a text through `update` and `finish_paragraph`
yields the digest of exactly the bytes of the characters of the text that are
not Unicode whitespace, in order — Rust's `split_whitespace`/`trim` drop all
Unicode `White_Space` characters (including form feed, vertical tab, NBSP,
etc.) before hashing, not only space, tab, CR and LF; no other byte is
removed or altered. -/
theorem paragraph_digest_drops_unicode_whitespace (text : List Char) :
    paragraphDigest text = utf8Encode (text.filter (fun c => !rustIsWhitespace c)) := by
  unfold paragraphDigest finish_paragraph walkerUpdate
  rw [foldl_update_words (splitWs (trimRust text)) []
      (fun w hw => splitWsAux_words (trimRust text) [] w (by intro x hx; simp at hx) hw)]
  unfold splitWs
  rw [splitWsAux_join (trimRust text) []]
  simp only [List.reverse_nil, List.nil_append]
  rw [filter_trimRust]

/-- Owned source path of a link (`Arc<PathBuf>` in the source), as bytes. -/
abbrev SourcePath := List Nat

/-- Embedding of `UsedLink` (src/html/mod.rs lines 183-188). -/
structure UsedLink (P : Type) where
  href : List Nat
  path : SourcePath
  paragraph : Option P
deriving DecidableEq

/-- Embedding of `DefinedLink` (src/html/mod.rs lines 190-193). -/
structure DefinedLink where
  href : List Nat
deriving DecidableEq

/-- Embedding of `Link` (src/html/mod.rs lines 195-199). -/
inductive Link (P : Type) where
  | uses (u : UsedLink P)
  | defines (d : DefinedLink)
deriving DecidableEq

/-- Embedding of `LinkState` (src/collector.rs lines 56-63): `defined` is
terminal, `undefined` carries the usages recorded so far. -/
inductive LinkState (P : Type) where
  | defined
  | undefined (usages : List (SourcePath × Option P))
deriving DecidableEq

/-- Embedding of `LinkState::add_usage` (src/collector.rs lines 66-70): a
usage is recorded only in the `undefined` state. -/
def LinkState.add_usage {P : Type} : LinkState P → UsedLink P → LinkState P
  | .defined, _ => .defined
  | .undefined links, link => .undefined (links ++ [(link.path, link.paragraph)])

/-- Embedding of `LinkState::update` (src/collector.rs lines 72-80): `defined`
absorbs anything; two `undefined` states concatenate their usages. -/
def LinkState.update {P : Type} : LinkState P → LinkState P → LinkState P
  | .defined, _ => .defined
  | .undefined _, .defined => .defined
  | .undefined links, .undefined links2 => .undefined (links ++ links2)

/-- Lookup in the patricia map.  The `PatriciaMap` is modeled as a key-unique
association list; its sorted iteration order is abstracted away, which is
sound because every claim about enumeration is order-insensitive. -/
def mapGet {V : Type} : List (List Nat × V) → List Nat → Option V
  | [], _ => none
  | (k, v) :: rest, key => if k = key then some v else mapGet rest key

/-- Insert-or-replace in the patricia map model. -/
def mapInsert {V : Type} : List (List Nat × V) → List Nat → V → List (List Nat × V)
  | [], key, v => [(key, v)]
  | (k, w) :: rest, key, v =>
    if k = key then (key, v) :: rest else (k, w) :: mapInsert rest key v

/-- Embedding of `BrokenLinkCollector` (src/collector.rs lines 84-88); the
bump arena holds only scratch data and has no observable state. -/
structure BrokenLinkCollector (P : Type) where
  links : List (List Nat × LinkState P)
  used_link_count : Nat
deriving DecidableEq

/-- Embedding of `BrokenLinkCollector::new`. -/
def BrokenLinkCollector.new (P : Type) : BrokenLinkCollector P := ⟨[], 0⟩

/-- Embedding of `BrokenLinkCollector::ingest` (src/collector.rs lines
99-127).  A `Uses` link is recorded only if its href passes `is_bad_schema`;
the guard covers both the counter and the map update.  The canonicalization
the source performs into the scratch arena at lines 106-109 discards its
result and has no observable effect, so it does not appear here.  A `Defines`
link unconditionally sets its href to `defined`. -/
def ingest {P : Type} (c : BrokenLinkCollector P) : Link P → BrokenLinkCollector P
  | .uses used_link =>
    if is_bad_schema used_link.href then c
    else
      { links :=
          match mapGet c.links used_link.href with
          | some state => mapInsert c.links used_link.href (state.add_usage used_link)
          | none =>
            mapInsert c.links used_link.href ((LinkState.undefined []).add_usage used_link)
        used_link_count := c.used_link_count + 1 }
  | .defines defined_link =>
    { c with links := mapInsert c.links defined_link.href .defined }

/-- One step of the merge loop of `BrokenLinkCollector::merge`
(src/collector.rs lines 132-138): an href already present is combined through
`LinkState::update`, a new href is inserted with the other collector's state. -/
def mergeStep {P : Type} (m : List (List Nat × LinkState P)) (e : List Nat × LinkState P) :
    List (List Nat × LinkState P) :=
  match mapGet m e.1 with
  | some state => mapInsert m e.1 (state.update e.2)
  | none => mapInsert m e.1 e.2

/-- Embedding of `BrokenLinkCollector::merge` (src/collector.rs lines
129-139): counts add, the other collector's entries are folded in. -/
def merge {P : Type} (c other : BrokenLinkCollector P) : BrokenLinkCollector P :=
  { links := other.links.foldl mergeStep c.links
    used_link_count := c.used_link_count + other.used_link_count }

/-- Embedding of `OwnedUsedLink` (src/collector.rs lines 22-27). -/
structure OwnedUsedLink (P : Type) where
  href : List Nat
  path : SourcePath
  paragraph : Option P
deriving DecidableEq

/-- Embedding of `BrokenLink` (src/collector.rs lines 142-146). -/
structure BrokenLink (P : Type) where
  hard_404 : Bool
  link : OwnedUsedLink P
deriving DecidableEq

/-- Test for `matches!(links.get(..), Some(&LinkState::Defined))`. -/
def isDefinedOpt {P : Type} : Option (LinkState P) → Bool
  | some .defined => true
  | _ => false

/-- Hard-404 flag computed by `get_broken_links` for one undefined href: with
anchor checking, the href with its fragment removed must not be `defined`;
without anchor checking the flag is always true. -/
def hard404 {P : Type} (links : List (List Nat × LinkState P)) (check_anchors : Bool)
    (href : List Nat) : Bool :=
  if check_anchors then !(isDefinedOpt (mapGet links (without_anchor href))) else true

/-- Broken links contributed by one map entry in `get_broken_links`
(src/collector.rs lines 152-175): a `defined` entry contributes nothing, an
`undefined` entry contributes one `BrokenLink` per recorded usage. -/
def brokenEntry {P : Type} (links : List (List Nat × LinkState P)) (check_anchors : Bool)
    (e : List Nat × LinkState P) : List (BrokenLink P) :=
  match e.2 with
  | .defined => []
  | .undefined usages =>
    usages.map (fun u => ⟨hard404 links check_anchors e.1, ⟨e.1, u.1, u.2⟩⟩)

/-- Embedding of `BrokenLinkCollector::get_broken_links` (src/collector.rs
lines 148-178). -/
def get_broken_links {P : Type} (c : BrokenLinkCollector P) (check_anchors : Bool) :
    List (BrokenLink P) :=
  c.links.foldl (fun acc e => acc ++ brokenEntry c.links check_anchors e) []

/-- Embedding of `BrokenLinkCollector::used_links_count` (src/collector.rs
lines 180-182). -/
def used_links_count {P : Type} (c : BrokenLinkCollector P) : Nat := c.used_link_count

/-- Collector built by ingesting a sequence of links into a fresh collector,
as the pipeline driver does per worker. -/
def buildCollector {P : Type} (ls : List (Link P)) : BrokenLinkCollector P :=
  ls.foldl ingest (BrokenLinkCollector.new P)

/-- Number of broken links counted as hard 404s by the reporting loop of
`check_links` (src/main.rs lines 190-197). -/
def badLinksCount {P : Type} (bls : List (BrokenLink P)) : Nat :=
  (bls.filter (fun bl => bl.hard_404)).length

/-- Number of broken links counted as bad anchors by the reporting loop of
`check_links` (src/main.rs lines 190-197). -/
def badAnchorsCount {P : Type} (bls : List (BrokenLink P)) : Nat :=
  (bls.filter (fun bl => !bl.hard_404)).length

/-- Embedding of the exit decision at the end of `check_links` (src/main.rs
lines 261-278): exit 1 when any hard 404 was counted, else exit 2 when any
bad anchor was counted, else exit 0 through `Ok(())`. -/
def checkLinksExitCode {P : Type} (bls : List (BrokenLink P)) : Nat :=
  if badLinksCount bls > 0 then 1 else if badAnchorsCount bls > 0 then 2 else 0

theorem mapGet_mapInsert {V : Type} (l : List (List Nat × V)) (k : List Nat) (v : V)
    (q : List Nat) : mapGet (mapInsert l k v) q = if k = q then some v else mapGet l q := by
  induction l with
  | nil =>
    rcases Decidable.em (k = q) with h | h <;> simp [mapInsert, mapGet, h]
  | cons e rest ih =>
    rcases e with ⟨k0, w⟩
    rcases Decidable.em (k0 = k) with h0 | h0
    · rw [show mapInsert ((k0, w) :: rest) k v = (k, v) :: rest by simp [mapInsert, h0]]
      rcases Decidable.em (k = q) with h | h
      · simp [mapGet, h]
      · rw [show mapGet ((k, v) :: rest) q = mapGet rest q by simp [mapGet, h], if_neg h]
        rw [show mapGet ((k0, w) :: rest) q = mapGet rest q by
          simp [mapGet, h0 ▸ h]]
    · rw [show mapInsert ((k0, w) :: rest) k v = (k0, w) :: mapInsert rest k v by
        simp [mapInsert, h0]]
      rcases Decidable.em (k0 = q) with hq | hq
      · have hkq : ¬ (k = q) := fun h => h0 (h ▸ hq.symm ▸ rfl)
        simp [mapGet, hq, if_neg hkq]
      · rw [show mapGet ((k0, w) :: mapInsert rest k v) q = mapGet (mapInsert rest k v) q by
          simp [mapGet, hq]]
        rw [show mapGet ((k0, w) :: rest) q = mapGet rest q by simp [mapGet, hq]]
        exact ih

theorem mem_keys_mapInsert {V : Type} (l : List (List Nat × V)) (k : List Nat) (v : V)
    (q : List Nat) :
    q ∈ (mapInsert l k v).map Prod.fst ↔ q ∈ l.map Prod.fst ∨ q = k := by
  induction l with
  | nil => simp [mapInsert]
  | cons e rest ih =>
    rcases e with ⟨k0, w⟩
    rcases Decidable.em (k0 = k) with h0 | h0
    · subst h0
      rw [show mapInsert ((k0, w) :: rest) k0 v = (k0, v) :: rest by simp [mapInsert]]
      simp only [List.map_cons, List.mem_cons]
      constructor
      · rintro (h | h)
        · exact Or.inr h
        · exact Or.inl (Or.inr h)
      · rintro ((h | h) | h)
        · exact Or.inl h
        · exact Or.inr h
        · exact Or.inl h
    · rw [show mapInsert ((k0, w) :: rest) k v = (k0, w) :: mapInsert rest k v by
        simp [mapInsert, h0]]
      simp only [List.map_cons, List.mem_cons, ih]
      tauto

theorem nodup_keys_mapInsert {V : Type} (l : List (List Nat × V)) (k : List Nat) (v : V)
    (hnd : (l.map Prod.fst).Nodup) : ((mapInsert l k v).map Prod.fst).Nodup := by
  induction l with
  | nil => simp [mapInsert]
  | cons e rest ih =>
    rcases e with ⟨k0, w⟩
    simp only [List.map_cons, List.nodup_cons] at hnd
    rcases Decidable.em (k0 = k) with h0 | h0
    · subst h0
      rw [show mapInsert ((k0, w) :: rest) k0 v = (k0, v) :: rest by simp [mapInsert]]
      simp only [List.map_cons, List.nodup_cons]
      exact hnd
    · rw [show mapInsert ((k0, w) :: rest) k v = (k0, w) :: mapInsert rest k v by
        simp [mapInsert, h0]]
      simp only [List.map_cons, List.nodup_cons]
      refine ⟨?_, ih hnd.2⟩
      intro hmem
      rcases (mem_keys_mapInsert rest k v k0).mp hmem with h | h
      · exact hnd.1 h
      · exact h0 h

theorem mapGet_eq_none_of_not_mem {V : Type} (l : List (List Nat × V)) (q : List Nat)
    (h : ¬ (q ∈ l.map Prod.fst)) : mapGet l q = none := by
  induction l with
  | nil => rfl
  | cons e rest ih =>
    rcases e with ⟨k0, w⟩
    simp only [List.map_cons, List.mem_cons] at h
    push_neg at h
    have hk : k0 ≠ q := fun hk => h.1 hk.symm
    rw [show mapGet ((k0, w) :: rest) q = mapGet rest q by simp [mapGet, hk]]
    exact ih h.2

theorem mem_of_mapGet_eq_some {V : Type} (l : List (List Nat × V)) (q : List Nat) (v : V)
    (h : mapGet l q = some v) : (q, v) ∈ l := by
  induction l with
  | nil => exact absurd h (by simp [mapGet])
  | cons e rest ih =>
    rcases e with ⟨k0, w⟩
    rcases Decidable.em (k0 = q) with hq | hq
    · rw [show mapGet ((k0, w) :: rest) q = some w by simp [mapGet, hq]] at h
      rw [Option.some.injEq] at h
      subst h; subst hq
      exact List.mem_cons_self _ _
    · rw [show mapGet ((k0, w) :: rest) q = mapGet rest q by simp [mapGet, hq]] at h
      exact List.mem_cons_of_mem _ (ih h)

theorem mapGet_eq_some_of_mem_nodup {V : Type} (l : List (List Nat × V)) (q : List Nat)
    (v : V) (hnd : (l.map Prod.fst).Nodup) (h : (q, v) ∈ l) : mapGet l q = some v := by
  induction l with
  | nil => simp at h
  | cons e rest ih =>
    rcases e with ⟨k0, w⟩
    simp only [List.map_cons, List.nodup_cons] at hnd
    rcases List.mem_cons.mp h with heq | hmem
    · rw [Prod.mk.injEq] at heq
      rw [show mapGet ((k0, w) :: rest) q = some w by simp [mapGet, heq.1.symm]]
      rw [heq.2]
    · have hq : k0 ≠ q := by
        intro hk
        subst hk
        exact hnd.1 (List.mem_map.mpr ⟨_, hmem, rfl⟩)
      rw [show mapGet ((k0, w) :: rest) q = mapGet rest q by simp [mapGet, hq]]
      exact ih hnd.2 hmem

theorem nodup_keys_ingest {P : Type} (c : BrokenLinkCollector P) (l : Link P)
    (hnd : (c.links.map Prod.fst).Nodup) : ((ingest c l).links.map Prod.fst).Nodup := by
  cases l with
  | uses u =>
    rcases Decidable.em (is_bad_schema u.href = true) with hb | hb
    · rw [show ingest c (.uses u) = c by simp [ingest, hb]]
      exact hnd
    · have hb' : is_bad_schema u.href = false := by
        cases h : is_bad_schema u.href
        · rfl
        · exact absurd h hb
      cases hg : mapGet c.links u.href with
      | some state =>
        rw [show (ingest c (.uses u)).links = mapInsert c.links u.href (state.add_usage u) by
          simp [ingest, hb', hg]]
        exact nodup_keys_mapInsert c.links u.href _ hnd
      | none =>
        rw [show (ingest c (.uses u)).links =
            mapInsert c.links u.href ((LinkState.undefined []).add_usage u) by
          simp [ingest, hb', hg]]
        exact nodup_keys_mapInsert c.links u.href _ hnd
  | defines d =>
    rw [show (ingest c (.defines d)).links = mapInsert c.links d.href .defined by
      simp [ingest]]
    exact nodup_keys_mapInsert c.links d.href _ hnd

theorem nodup_keys_build {P : Type} (ls : List (Link P)) :
    ((buildCollector ls).links.map Prod.fst).Nodup := by
  suffices h : ∀ (c : BrokenLinkCollector P), (c.links.map Prod.fst).Nodup →
      ((ls.foldl ingest c).links.map Prod.fst).Nodup by
    exact h (BrokenLinkCollector.new P) (by simp [BrokenLinkCollector.new])
  induction ls with
  | nil => intro c hc; exact hc
  | cons l ls ih =>
    intro c hc
    exact ih (ingest c l) (nodup_keys_ingest c l hc)

theorem nodup_keys_mergeFold {P : Type} (b : List (List Nat × LinkState P)) :
    ∀ a, (a.map Prod.fst).Nodup → ((b.foldl mergeStep a).map Prod.fst).Nodup := by
  induction b with
  | nil => intro a ha; exact ha
  | cons e rest ih =>
    intro a ha
    have : mergeStep a e = mapInsert a e.1 (match mapGet a e.1 with
        | some state => state.update e.2
        | none => e.2) := by
      unfold mergeStep
      cases mapGet a e.1 <;> rfl
    exact ih (mergeStep a e) (this ▸ nodup_keys_mapInsert a e.1 _ ha)

/-- C2: once a collector holds state `Defined` for a href, ingesting any
further link (a `Uses`, or another `Defines` for this or any href) and merging
with any other collector leave that href `Defined`. -/
theorem monotone_defined (P : Type) (c : BrokenLinkCollector P) (href : List Nat)
    (hdef : mapGet c.links href = some .defined) :
    (∀ l : Link P, mapGet (ingest c l).links href = some .defined) ∧
    (∀ other : BrokenLinkCollector P, mapGet (merge c other).links href = some .defined) := by
  constructor
  · intro l
    cases l with
    | uses u =>
      rcases Decidable.em (is_bad_schema u.href = true) with hb | hb
      · rw [show ingest c (.uses u) = c by simp [ingest, hb]]
        exact hdef
      · have hb' : is_bad_schema u.href = false := by
          cases h : is_bad_schema u.href
          · rfl
          · exact absurd h hb
        rcases Decidable.em (u.href = href) with he | he
        · subst he
          rw [show (ingest c (.uses u)).links =
              mapInsert c.links u.href ((LinkState.defined).add_usage u) by
            simp [ingest, hb', hdef]]
          rw [mapGet_mapInsert, if_pos rfl]
          rfl
        · cases hg : mapGet c.links u.href with
          | some state =>
            rw [show (ingest c (.uses u)).links =
                mapInsert c.links u.href (state.add_usage u) by simp [ingest, hb', hg]]
            rw [mapGet_mapInsert, if_neg he]
            exact hdef
          | none =>
            rw [show (ingest c (.uses u)).links =
                mapInsert c.links u.href ((LinkState.undefined []).add_usage u) by
              simp [ingest, hb', hg]]
            rw [mapGet_mapInsert, if_neg he]
            exact hdef
    | defines d =>
      rw [show (ingest c (.defines d)).links = mapInsert c.links d.href .defined by
        simp [ingest]]
      rw [mapGet_mapInsert]
      rcases Decidable.em (d.href = href) with he | he
      · rw [if_pos he]
      · rw [if_neg he]; exact hdef
  · intro other
    show mapGet (other.links.foldl mergeStep c.links) href = some .defined
    have key : ∀ (b : List (List Nat × LinkState P)) (m : List (List Nat × LinkState P)),
        mapGet m href = some .defined → mapGet (b.foldl mergeStep m) href = some .defined := by
      intro b
      induction b with
      | nil => intro m hm; exact hm
      | cons e rest ih =>
        intro m hm
        refine ih (mergeStep m e) ?_
        rcases Decidable.em (e.1 = href) with he | he
        · rw [show mergeStep m e = mapInsert m e.1 ((LinkState.defined).update e.2) by
            unfold mergeStep; rw [he, hm]]
          rw [mapGet_mapInsert, if_pos he]
          rfl
        · have : mergeStep m e = mapInsert m e.1 (match mapGet m e.1 with
              | some state => state.update e.2
              | none => e.2) := by
            unfold mergeStep
            cases mapGet m e.1 <;> rfl
          rw [this, mapGet_mapInsert, if_neg he]
          exact hm
    exact key other.links c.links hdef

/-- Witness for C2 at a collector that has ingested a `Defines` for href `h`,
followed by a further `Uses` of the same href. -/
theorem monotone_defined_witness :
    mapGet (ingest (ingest (BrokenLinkCollector.new Nat) (.defines ⟨chl ['h']⟩))
        (.uses ⟨chl ['h'], [], none⟩)).links (chl ['h']) = some .defined :=
  (monotone_defined Nat (ingest (BrokenLinkCollector.new Nat) (.defines ⟨chl ['h']⟩))
    (chl ['h']) (by decide)).1 (.uses ⟨chl ['h'], [], none⟩)

/-- Predicate for the `Uses` links that `ingest` counts: a good (non-external)
schema. -/
def isCountedUse {P : Type} : Link P → Bool
  | .uses u => !is_bad_schema u.href
  | .defines _ => false

/-- C10: `used_link_count` is a merge homomorphism and an exact tally: merge
adds the counts; a collector built from a link sequence counts exactly the
`Uses` links with a non-external href; ingesting a `Defines` never changes the
count.  (`get_broken_links` takes the collector immutably, so it cannot change
the count; in this embedding it is a pure function of the collector.) -/
theorem used_links_count_properties (P : Type) :
    (∀ a b : BrokenLinkCollector P,
      used_links_count (merge a b) = used_links_count a + used_links_count b) ∧
    (∀ ls : List (Link P),
      used_links_count (buildCollector ls) = (ls.filter isCountedUse).length) ∧
    (∀ (c : BrokenLinkCollector P) (d : DefinedLink),
      used_links_count (ingest c (.defines d)) = used_links_count c) := by
  refine ⟨fun a b => rfl, ?_, fun c d => rfl⟩
  intro ls
  suffices h : ∀ (c : BrokenLinkCollector P),
      used_links_count (ls.foldl ingest c) = used_links_count c + (ls.filter isCountedUse).length by
    have := h (BrokenLinkCollector.new P)
    simpa [buildCollector, BrokenLinkCollector.new, used_links_count] using this
  induction ls with
  | nil => intro c; simp [used_links_count]
  | cons l ls ih =>
    intro c
    rw [List.foldl_cons, ih (ingest c l)]
    have hstep : used_links_count (ingest c l) =
        used_links_count c + (if isCountedUse l then 1 else 0) := by
      cases l with
      | uses u =>
        rcases hb : is_bad_schema u.href with _ | _
        · simp [ingest, hb, used_links_count, isCountedUse]
        · simp [ingest, hb, used_links_count, isCountedUse]
      | defines d => simp [ingest, used_links_count, isCountedUse]
    rw [hstep]
    rcases hl : isCountedUse l with _ | _
    · simp [List.filter_cons, hl]
    · simp [List.filter_cons, hl]
      omega

/-- C9: the exit decision of `check_links` returns 0 iff there is no broken
link at all, 1 iff at least one hard 404 was reported (regardless of how many
bad anchors there are), and 2 iff there is at least one broken link and none
of them is a hard 404 (anchor-only failures). -/
theorem check_links_exit_codes (P : Type) (bls : List (BrokenLink P)) :
    (checkLinksExitCode bls = 0 ↔ bls = []) ∧
    (checkLinksExitCode bls = 1 ↔ ∃ bl ∈ bls, bl.hard_404 = true) ∧
    (checkLinksExitCode bls = 2 ↔ ((∀ bl ∈ bls, bl.hard_404 = false) ∧ bls ≠ [])) := by
  have hlinks : badLinksCount bls > 0 ↔ ∃ bl ∈ bls, bl.hard_404 = true := by
    unfold badLinksCount
    constructor
    · intro h
      rcases List.exists_mem_of_ne_nil _ (List.length_pos.mp h) with ⟨bl, hbl⟩
      have := List.mem_filter.mp hbl
      exact ⟨bl, this.1, this.2⟩
    · rintro ⟨bl, hmem, hh⟩
      refine List.length_pos.mpr ?_
      intro hemp
      exact absurd (List.mem_filter.mpr ⟨hmem, hh⟩) (by simp [hemp])
  have hanch : badAnchorsCount bls > 0 ↔ ∃ bl ∈ bls, bl.hard_404 = false := by
    unfold badAnchorsCount
    constructor
    · intro h
      rcases List.exists_mem_of_ne_nil _ (List.length_pos.mp h) with ⟨bl, hbl⟩
      have := List.mem_filter.mp hbl
      refine ⟨bl, this.1, ?_⟩
      have h2 := this.2
      cases hb : bl.hard_404
      · rfl
      · rw [hb] at h2; exact absurd h2 (by decide)
    · rintro ⟨bl, hmem, hh⟩
      refine List.length_pos.mpr ?_
      intro hemp
      have hfm : bl ∈ List.filter (fun x : BrokenLink P => !x.hard_404) bls :=
        List.mem_filter.mpr ⟨hmem, by rw [hh]; rfl⟩
      rw [hemp] at hfm
      simp at hfm
  rcases Decidable.em (∃ bl ∈ bls, bl.hard_404 = true) with hex1 | hex1
  · have h1 : badLinksCount bls > 0 := hlinks.mpr hex1
    rcases hex1 with ⟨bl0, hbl0, hh0⟩
    refine ⟨?_, ?_, ?_⟩
    · rw [show checkLinksExitCode bls = 1 by simp [checkLinksExitCode, h1]]
      constructor
      · intro h; exact absurd h (by decide)
      · rintro rfl; simp at hbl0
    · rw [show checkLinksExitCode bls = 1 by simp [checkLinksExitCode, h1]]
      exact ⟨fun _ => ⟨bl0, hbl0, hh0⟩, fun _ => rfl⟩
    · rw [show checkLinksExitCode bls = 1 by simp [checkLinksExitCode, h1]]
      constructor
      · intro h; exact absurd h (by decide)
      · rintro ⟨hall, -⟩
        rw [hall bl0 hbl0] at hh0
        exact absurd hh0 (by decide)
  · have h1 : ¬ (badLinksCount bls > 0) := fun h => hex1 (hlinks.mp h)
    have hall : ∀ bl ∈ bls, bl.hard_404 = false := by
      intro bl hbl
      cases hb : bl.hard_404
      · rfl
      · exact absurd ⟨bl, hbl, hb⟩ hex1
    rcases Decidable.em (∃ bl ∈ bls, bl.hard_404 = false) with hex2 | hex2
    · have h2 : badAnchorsCount bls > 0 := hanch.mpr hex2
      rcases hex2 with ⟨bl0, hbl0, -⟩
      refine ⟨?_, ?_, ?_⟩
      · rw [show checkLinksExitCode bls = 2 by simp [checkLinksExitCode, h1, h2]]
        constructor
        · intro h; exact absurd h (by decide)
        · rintro rfl; simp at hbl0
      · rw [show checkLinksExitCode bls = 2 by simp [checkLinksExitCode, h1, h2]]
        constructor
        · intro h; exact absurd h (by decide)
        · rintro ⟨bl, hbl, hh⟩
          rw [hall bl hbl] at hh
          exact absurd hh (by decide)
      · rw [show checkLinksExitCode bls = 2 by simp [checkLinksExitCode, h1, h2]]
        refine ⟨fun _ => ⟨hall, ?_⟩, fun _ => rfl⟩
        rintro rfl; simp at hbl0
    · have hemp : bls = [] := by
        cases bls with
        | nil => rfl
        | cons bl rest =>
          cases hb : bl.hard_404
          · exact absurd ⟨bl, List.mem_cons_self bl rest, hb⟩ hex2
          · exact absurd ⟨bl, List.mem_cons_self bl rest, hb⟩ hex1
      subst hemp
      refine ⟨?_, ?_, ?_⟩
      · simp [checkLinksExitCode, badLinksCount, badAnchorsCount]
      · simp [checkLinksExitCode, badLinksCount, badAnchorsCount]
      · simp [checkLinksExitCode, badLinksCount, badAnchorsCount]

/-- Pointwise combination of two optional link states, the lookup-level effect
of the merge loop: an href absent on one side keeps the other side's state,
an href present on both sides combines through `LinkState.update`. -/
def combineOpt {P : Type} : Option (LinkState P) → Option (LinkState P) → Option (LinkState P)
  | x, none => x
  | none, some s => some s
  | some s0, some s => some (s0.update s)

theorem combineOpt_none_right {P : Type} (x : Option (LinkState P)) :
    combineOpt x none = x := by
  cases x <;> rfl

theorem mapGet_mergeFold {P : Type} (b : List (List Nat × LinkState P))
    (hb : (b.map Prod.fst).Nodup) :
    ∀ (a : List (List Nat × LinkState P)) (q : List Nat),
      mapGet (b.foldl mergeStep a) q = combineOpt (mapGet a q) (mapGet b q) := by
  induction b with
  | nil =>
    intro a q
    rw [show mapGet ([] : List (List Nat × LinkState P)) q = none from rfl,
      combineOpt_none_right]
    rfl
  | cons e rest ih =>
    simp only [List.map_cons, List.nodup_cons] at hb
    intro a q
    rw [List.foldl_cons, ih hb.2 (mergeStep a e) q]
    rcases e with ⟨k, s⟩
    have hms : mergeStep a (k, s) = (match mapGet a k with
        | some state => mapInsert a k (state.update s)
        | none => mapInsert a k s) := rfl
    rcases Decidable.em (k = q) with he | he
    · subst he
      have hrest : mapGet rest k = none := mapGet_eq_none_of_not_mem rest k hb.1
      rw [show mapGet ((k, s) :: rest) k = some s by simp [mapGet]]
      rw [hrest, combineOpt_none_right]
      cases hg : mapGet a k with
      | some s0 =>
        rw [hg] at hms
        rw [hms, mapGet_mapInsert, if_pos rfl]
        rfl
      | none =>
        rw [hg] at hms
        rw [hms, mapGet_mapInsert, if_pos rfl]
        rfl
    · rw [show mapGet ((k, s) :: rest) q = mapGet rest q by simp [mapGet, he]]
      have hstep : mapGet (mergeStep a (k, s)) q = mapGet a q := by
        cases hg : mapGet a k with
        | some s0 =>
          rw [hg] at hms
          rw [hms, mapGet_mapInsert, if_neg he]
        | none =>
          rw [hg] at hms
          rw [hms, mapGet_mapInsert, if_neg he]
      rw [hstep]

theorem foldl_append_flatten {α β : Type} (l : List α) (g : α → List β) :
    ∀ init : List β, l.foldl (fun acc e => acc ++ g e) init = init ++ (l.map g).flatten := by
  induction l with
  | nil => intro init; simp
  | cons e rest ih =>
    intro init
    rw [List.foldl_cons, ih (init ++ g e)]
    simp

theorem get_broken_links_eq_flatten {P : Type} (c : BrokenLinkCollector P) (ca : Bool) :
    get_broken_links c ca = (c.links.map (brokenEntry c.links ca)).flatten := by
  unfold get_broken_links
  rw [foldl_append_flatten]
  rfl

theorem mem_brokenEntry_iff {P : Type} (M : List (List Nat × LinkState P)) (ca : Bool)
    (k : List Nat) (st : LinkState P) (bl : BrokenLink P) :
    bl ∈ brokenEntry M ca (k, st) ↔
      ∃ us p par, st = .undefined us ∧ (p, par) ∈ us ∧
        bl = ⟨hard404 M ca k, ⟨k, p, par⟩⟩ := by
  cases st with
  | defined =>
    constructor
    · intro h; exact absurd h (by simp [brokenEntry])
    · rintro ⟨us, p, par, h, -, -⟩; exact absurd h (by simp)
  | undefined us =>
    rw [show brokenEntry M ca (k, .undefined us) =
        us.map (fun u => ⟨hard404 M ca k, ⟨k, u.1, u.2⟩⟩) from rfl, List.mem_map]
    constructor
    · rintro ⟨u, hu, rfl⟩
      exact ⟨us, u.1, u.2, rfl, by simpa using hu, rfl⟩
    · rintro ⟨us', p, par, hus, hmem, rfl⟩
      rw [LinkState.undefined.injEq] at hus
      exact ⟨(p, par), hus ▸ hmem, rfl⟩

theorem mem_get_broken_links {P : Type} (c : BrokenLinkCollector P)
    (hnd : (c.links.map Prod.fst).Nodup) (ca : Bool) (bl : BrokenLink P) :
    bl ∈ get_broken_links c ca ↔
      ∃ us, mapGet c.links bl.link.href = some (.undefined us) ∧
        (bl.link.path, bl.link.paragraph) ∈ us ∧
        bl.hard_404 = hard404 c.links ca bl.link.href := by
  rw [get_broken_links_eq_flatten, List.mem_flatten]
  constructor
  · rintro ⟨L, hL, hbl⟩
    rcases List.mem_map.mp hL with ⟨⟨k, st⟩, hmem, rfl⟩
    rcases (mem_brokenEntry_iff c.links ca k st bl).mp hbl with ⟨us, p, par, rfl, hus, rfl⟩
    exact ⟨us, mapGet_eq_some_of_mem_nodup c.links k _ hnd hmem, hus, rfl⟩
  · rintro ⟨us, hget, hmem, hhard⟩
    refine ⟨brokenEntry c.links ca (bl.link.href, .undefined us),
      List.mem_map.mpr ⟨(bl.link.href, .undefined us),
        mem_of_mapGet_eq_some c.links bl.link.href _ hget, rfl⟩, ?_⟩
    rw [mem_brokenEntry_iff]
    exact ⟨us, bl.link.path, bl.link.paragraph, rfl, hmem, by rw [← hhard]⟩

theorem update_assoc {P : Type} (s t u : LinkState P) :
    (s.update t).update u = s.update (t.update u) := by
  cases s with
  | defined => rfl
  | undefined a =>
    cases t with
    | defined => cases u <;> rfl
    | undefined b =>
      cases u with
      | defined => rfl
      | undefined c =>
        show LinkState.undefined (a ++ b ++ c) = .undefined (a ++ (b ++ c))
        rw [List.append_assoc]

theorem combineOpt_assoc {P : Type} (x y z : Option (LinkState P)) :
    combineOpt (combineOpt x y) z = combineOpt x (combineOpt y z) := by
  cases z with
  | none => rw [combineOpt_none_right, combineOpt_none_right]
  | some sz =>
    cases y with
    | none => rw [combineOpt_none_right]; rfl
    | some sy =>
      cases x with
      | none => rfl
      | some sx =>
        show some ((sx.update sy).update sz) = some (sx.update (sy.update sz))
        rw [update_assoc]

theorem isDefinedOpt_combineOpt_comm {P : Type} (x y : Option (LinkState P)) :
    isDefinedOpt (combineOpt x y) = isDefinedOpt (combineOpt y x) := by
  cases x with
  | none => cases y with
    | none => rfl
    | some sy => cases sy <;> rfl
  | some sx =>
    cases y with
    | none => cases sx <;> rfl
    | some sy => cases sx <;> cases sy <;> rfl

theorem mem_undefined_combineOpt_comm {P : Type} (x y : Option (LinkState P))
    (m : SourcePath × Option P) :
    (∃ us, combineOpt x y = some (.undefined us) ∧ m ∈ us) ↔
      (∃ us, combineOpt y x = some (.undefined us) ∧ m ∈ us) := by
  have key : ∀ (a b : Option (LinkState P)),
      (∃ us, combineOpt a b = some (.undefined us) ∧ m ∈ us) →
      (∃ us, combineOpt b a = some (.undefined us) ∧ m ∈ us) := by
    intro a b
    rintro ⟨us, hc, hm⟩
    cases a with
    | none =>
      cases b with
      | none => exact ⟨us, hc, hm⟩
      | some sb =>
        refine ⟨us, ?_, hm⟩
        rw [combineOpt_none_right]
        exact hc
    | some sa =>
      cases b with
      | none =>
        rw [combineOpt_none_right] at hc
        exact ⟨us, hc, hm⟩
      | some sb =>
        cases sa with
        | defined =>
          rw [show combineOpt (some (LinkState.defined : LinkState P)) (some sb) =
              some .defined from rfl] at hc
          exact absurd hc (by simp)
        | undefined la =>
          cases sb with
          | defined =>
            rw [show combineOpt (some (LinkState.undefined la : LinkState P))
                (some .defined) = some .defined from rfl] at hc
            exact absurd hc (by simp)
          | undefined lb =>
            rw [show combineOpt (some (LinkState.undefined la : LinkState P))
                (some (.undefined lb)) = some (.undefined (la ++ lb)) from rfl] at hc
            have hus : la ++ lb = us := by
              rw [Option.some.injEq, LinkState.undefined.injEq] at hc
              exact hc
            refine ⟨lb ++ la, rfl, ?_⟩
            rw [← hus] at hm
            rcases List.mem_append.mp hm with h | h
            · exact List.mem_append.mpr (Or.inr h)
            · exact List.mem_append.mpr (Or.inl h)
  exact ⟨key x y, key y x⟩

theorem hard404_congr {P : Type} (M M' : List (List Nat × LinkState P))
    (h : ∀ q, mapGet M q = mapGet M' q) (ca : Bool) (href : List Nat) :
    hard404 M ca href = hard404 M' ca href := by
  unfold hard404
  rw [h (without_anchor href)]

/-- C1: merging collectors built from any ingest sequences is commutative and
associative with respect to the broken-link report, and per-href states
combine as `Defined ∨ anything = Defined` and
`Undefined(a) ∨ Undefined(b) = Undefined(a ++ b)`. -/
theorem merge_comm_assoc_broken_links (P : Type) (la lb lc : List (Link P)) (ca : Bool) :
    (∀ bl, bl ∈ get_broken_links (merge (buildCollector la) (buildCollector lb)) ca ↔
      bl ∈ get_broken_links (merge (buildCollector lb) (buildCollector la)) ca) ∧
    (∀ bl, bl ∈ get_broken_links
        (merge (merge (buildCollector la) (buildCollector lb)) (buildCollector lc)) ca ↔
      bl ∈ get_broken_links
        (merge (buildCollector la) (merge (buildCollector lb) (buildCollector lc))) ca) ∧
    (∀ s : LinkState P, LinkState.update .defined s = .defined) ∧
    (∀ a : List (SourcePath × Option P), LinkState.update (.undefined a) .defined = .defined) ∧
    (∀ a b : List (SourcePath × Option P),
      LinkState.update (.undefined a) (.undefined b) = .undefined (a ++ b)) := by
  have hA := nodup_keys_build (P := P) la
  have hB := nodup_keys_build (P := P) lb
  have hC := nodup_keys_build (P := P) lc
  set A := buildCollector la with hAdef
  set B := buildCollector lb with hBdef
  set C := buildCollector lc with hCdef
  have hAB : ((merge A B).links.map Prod.fst).Nodup := nodup_keys_mergeFold B.links A.links hA
  have hBA : ((merge B A).links.map Prod.fst).Nodup := nodup_keys_mergeFold A.links B.links hB
  have hBC : ((merge B C).links.map Prod.fst).Nodup := nodup_keys_mergeFold C.links B.links hB
  have hABC : (((merge (merge A B) C).links).map Prod.fst).Nodup :=
    nodup_keys_mergeFold C.links (merge A B).links hAB
  have hABC' : (((merge A (merge B C)).links).map Prod.fst).Nodup :=
    nodup_keys_mergeFold (merge B C).links A.links hA
  have hgAB : ∀ q, mapGet (merge A B).links q = combineOpt (mapGet A.links q) (mapGet B.links q) :=
    fun q => mapGet_mergeFold B.links hB A.links q
  have hgBA : ∀ q, mapGet (merge B A).links q = combineOpt (mapGet B.links q) (mapGet A.links q) :=
    fun q => mapGet_mergeFold A.links hA B.links q
  have hgBC : ∀ q, mapGet (merge B C).links q = combineOpt (mapGet B.links q) (mapGet C.links q) :=
    fun q => mapGet_mergeFold C.links hC B.links q
  have hgABC : ∀ q, mapGet (merge (merge A B) C).links q =
      combineOpt (combineOpt (mapGet A.links q) (mapGet B.links q)) (mapGet C.links q) := by
    intro q
    rw [show (merge (merge A B) C).links = C.links.foldl mergeStep (merge A B).links from rfl,
      mapGet_mergeFold C.links hC (merge A B).links q, hgAB q]
  have hgABC' : ∀ q, mapGet (merge A (merge B C)).links q =
      combineOpt (mapGet A.links q) (combineOpt (mapGet B.links q) (mapGet C.links q)) := by
    intro q
    rw [show (merge A (merge B C)).links = (merge B C).links.foldl mergeStep A.links from rfl,
      mapGet_mergeFold (merge B C).links hBC A.links q, hgBC q]
  have hassocGet : ∀ q, mapGet (merge (merge A B) C).links q =
      mapGet (merge A (merge B C)).links q := by
    intro q
    rw [hgABC q, hgABC' q, combineOpt_assoc]
  refine ⟨?_, ?_, fun s => rfl, fun a => rfl, fun a b => rfl⟩
  · intro bl
    rw [mem_get_broken_links (merge A B) hAB ca bl,
      mem_get_broken_links (merge B A) hBA ca bl]
    have hhard : hard404 (merge A B).links ca bl.link.href =
        hard404 (merge B A).links ca bl.link.href := by
      unfold hard404
      rw [hgAB (without_anchor bl.link.href), hgBA (without_anchor bl.link.href),
        isDefinedOpt_combineOpt_comm]
    constructor
    · rintro ⟨us, hget, hmem, hh⟩
      rw [hgAB bl.link.href] at hget
      rcases (mem_undefined_combineOpt_comm _ _ _).mp ⟨us, hget, hmem⟩ with ⟨us', hget', hmem'⟩
      exact ⟨us', by rw [hgBA bl.link.href]; exact hget', hmem', by rw [← hhard]; exact hh⟩
    · rintro ⟨us, hget, hmem, hh⟩
      rw [hgBA bl.link.href] at hget
      rcases (mem_undefined_combineOpt_comm _ _ _).mpr ⟨us, hget, hmem⟩ with ⟨us', hget', hmem'⟩
      exact ⟨us', by rw [hgAB bl.link.href]; exact hget', hmem', by rw [hhard]; exact hh⟩
  · intro bl
    rw [mem_get_broken_links (merge (merge A B) C) hABC ca bl,
      mem_get_broken_links (merge A (merge B C)) hABC' ca bl,
      hassocGet bl.link.href,
      hard404_congr (merge (merge A B) C).links (merge A (merge B C)).links hassocGet ca
        bl.link.href]

theorem count_map_inj {α β : Type} [BEq α] [LawfulBEq α] [BEq β] [LawfulBEq β] (f : α → β)
    (hf : ∀ x y, f x = f y → x = y) (l : List α) (x : α) :
    (l.map f).count (f x) = l.count x := by
  induction l with
  | nil => rfl
  | cons a l ih =>
    rw [List.map_cons, List.count_cons, List.count_cons, ih]
    congr 1
    cases hax : a == x with
    | true =>
      have hx : a = x := eq_of_beq hax
      subst hx
      rw [beq_self_eq_true]
    | false =>
      have hx : ¬ (a = x) := by
        intro h
        subst h
        rw [beq_self_eq_true] at hax
        cases hax
      have hfx : (f a == f x) = false := by
        cases hfa : f a == f x
        · rfl
        · exact absurd (hf a x (eq_of_beq hfa)) hx
      rw [hfx]

theorem count_brokenEntry_flatten {P : Type} [DecidableEq P]
    (M : List (List Nat × LinkState P)) (ca : Bool) (bl : BrokenLink P) :
    ∀ l : List (List Nat × LinkState P), (l.map Prod.fst).Nodup →
      ((l.map (brokenEntry M ca)).flatten).count bl =
        (match mapGet l bl.link.href with
         | some (.undefined us) =>
           if bl.hard_404 = hard404 M ca bl.link.href
           then us.count (bl.link.path, bl.link.paragraph) else 0
         | _ => 0) := by
  rcases bl with ⟨h4, hrefb, pb, gb⟩
  intro l
  induction l with
  | nil => intro _; rfl
  | cons e rest ih =>
    intro hnd
    rcases e with ⟨k, st⟩
    simp only [List.map_cons, List.nodup_cons] at hnd
    rw [show ((((k, st) :: rest).map (brokenEntry M ca)).flatten) =
        brokenEntry M ca (k, st) ++ ((rest.map (brokenEntry M ca)).flatten) by
      simp]
    rw [List.count_append]
    rcases Decidable.em (k = hrefb) with hk | hk
    · subst hk
      have hrest0 : mapGet rest k = none := mapGet_eq_none_of_not_mem rest _ hnd.1
      have htail :
          ((rest.map (brokenEntry M ca)).flatten).count
            (⟨h4, ⟨k, pb, gb⟩⟩ : BrokenLink P) = 0 := by
        rw [ih hnd.2, hrest0]
      rw [htail, Nat.add_zero,
        show mapGet ((k, st) :: rest) k = some st by simp [mapGet]]
      cases st with
      | defined => rfl
      | undefined us =>
        show List.count (⟨h4, ⟨k, pb, gb⟩⟩ : BrokenLink P)
            (us.map (fun u : SourcePath × Option P =>
              (⟨hard404 M ca k, ⟨k, u.1, u.2⟩⟩ : BrokenLink P))) =
          if h4 = hard404 M ca k
          then List.count ((pb, gb) : SourcePath × Option P) us else 0
        rcases Decidable.em (h4 = hard404 M ca k) with hh | hh
        · subst hh
          rw [if_pos rfl]
          refine count_map_inj (fun u : SourcePath × Option P =>
            (⟨hard404 M ca k, ⟨k, u.1, u.2⟩⟩ : BrokenLink P)) ?_ us (pb, gb)
          intro x y hxy
          rw [BrokenLink.mk.injEq, OwnedUsedLink.mk.injEq] at hxy
          rcases x with ⟨x1, x2⟩
          rcases y with ⟨y1, y2⟩
          rw [Prod.mk.injEq]
          exact ⟨hxy.2.2.1, hxy.2.2.2⟩
        · rw [if_neg hh]
          refine List.count_eq_zero.mpr ?_
          intro hmem
          rcases List.mem_map.mp hmem with ⟨u, -, hu⟩
          rw [BrokenLink.mk.injEq] at hu
          exact hh hu.1.symm
    · have hhead : (brokenEntry M ca (k, st)).count (⟨h4, ⟨hrefb, pb, gb⟩⟩ : BrokenLink P) = 0 := by
        refine List.count_eq_zero.mpr ?_
        intro hmem
        rcases (mem_brokenEntry_iff M ca k st _).mp hmem with ⟨us', p, par, -, -, hbl⟩
        rw [BrokenLink.mk.injEq, OwnedUsedLink.mk.injEq] at hbl
        exact hk hbl.2.1.symm
      rw [hhead, Nat.zero_add,
        show mapGet ((k, st) :: rest) hrefb = mapGet rest hrefb by simp [mapGet, hk]]
      exact ih hnd.2

/-- C3: `get_broken_links` emits, for each broken link value, exactly one
entry per accumulated usage of each href whose state is `Undefined` (and none
for other hrefs); the emitted `hard_404` flag is true iff the state of the
href with its anchor removed is not `Defined` when anchor checking is on, and
is always true when anchor checking is off. -/
theorem broken_links_enumeration (P : Type) [DecidableEq P] (c : BrokenLinkCollector P)
    (hnd : (c.links.map Prod.fst).Nodup) (ca : Bool) (bl : BrokenLink P) :
    (get_broken_links c ca).count bl =
      (match mapGet c.links bl.link.href with
       | some (.undefined us) =>
         if bl.hard_404 =
             (if ca then !(isDefinedOpt (mapGet c.links (without_anchor bl.link.href)))
              else true)
         then us.count (bl.link.path, bl.link.paragraph) else 0
       | _ => 0) := by
  rw [get_broken_links_eq_flatten]
  exact count_brokenEntry_flatten c.links ca bl c.links hnd

/-- Witness for C3 at a one-entry collector holding one usage of the
undefined href `x`, checked with anchors on. -/
theorem broken_links_enumeration_witness :
    (get_broken_links
        (⟨[(chl ['x'], .undefined [([], (none : Option Nat))])], 1⟩ : BrokenLinkCollector Nat)
        true).count ⟨true, ⟨chl ['x'], [], none⟩⟩ = 1 :=
  (broken_links_enumeration Nat ⟨[(chl ['x'], .undefined [([], none)])], 1⟩ (by decide) true
    ⟨true, ⟨chl ['x'], [], none⟩⟩).trans (by decide)

theorem mem_mapInsert_elim {V : Type} (l : List (List Nat × V)) (k : List Nat) (v : V)
    (e : List Nat × V) (h : e ∈ mapInsert l k v) : e ∈ l ∨ e = (k, v) := by
  induction l with
  | nil =>
    rw [show mapInsert ([] : List (List Nat × V)) k v = [(k, v)] from rfl] at h
    exact Or.inr (List.mem_singleton.mp h)
  | cons e0 rest ih =>
    rcases e0 with ⟨k0, w⟩
    rcases Decidable.em (k0 = k) with h0 | h0
    · rw [show mapInsert ((k0, w) :: rest) k v = (k, v) :: rest by simp [mapInsert, h0]] at h
      rcases List.mem_cons.mp h with rfl | hmem
      · exact Or.inr rfl
      · exact Or.inl (List.mem_cons_of_mem _ hmem)
    · rw [show mapInsert ((k0, w) :: rest) k v = (k0, w) :: mapInsert rest k v by
        simp [mapInsert, h0]] at h
      rcases List.mem_cons.mp h with rfl | hmem
      · exact Or.inl (List.mem_cons_self _ _)
      · rcases ih hmem with hl | he
        · exact Or.inl (List.mem_cons_of_mem _ hl)
        · exact Or.inr he

/-- Invariant of the collector map: every entry in the `Undefined` state has a
non-external href.  `Undefined` entries are created only by `ingest` for
`Uses` links that passed the schema check. -/
def entriesGood {P : Type} (m : List (List Nat × LinkState P)) : Prop :=
  ∀ e ∈ m, ∀ us, e.2 = LinkState.undefined us → is_bad_schema e.1 = false

theorem entriesGood_ingest {P : Type} (c : BrokenLinkCollector P) (l : Link P)
    (hg : entriesGood c.links) : entriesGood (ingest c l).links := by
  cases l with
  | uses u =>
    rcases hb : is_bad_schema u.href with _ | _
    · cases hget : mapGet c.links u.href with
      | some state =>
        rw [show (ingest c (.uses u)).links = mapInsert c.links u.href (state.add_usage u) by
          simp [ingest, hb, hget]]
        intro e hmem us hus
        rcases mem_mapInsert_elim c.links u.href _ e hmem with hin | rfl
        · exact hg e hin us hus
        · exact hb
      | none =>
        rw [show (ingest c (.uses u)).links =
            mapInsert c.links u.href ((LinkState.undefined []).add_usage u) by
          simp [ingest, hb, hget]]
        intro e hmem us hus
        rcases mem_mapInsert_elim c.links u.href _ e hmem with hin | rfl
        · exact hg e hin us hus
        · exact hb
    · rw [show ingest c (.uses u) = c by simp [ingest, hb]]
      exact hg
  | defines d =>
    rw [show (ingest c (.defines d)).links = mapInsert c.links d.href .defined by
      simp [ingest]]
    intro e hmem us hus
    rcases mem_mapInsert_elim c.links d.href _ e hmem with hin | rfl
    · exact hg e hin us hus
    · exact absurd hus (by simp)

theorem entriesGood_build {P : Type} (ls : List (Link P)) :
    entriesGood (buildCollector ls).links := by
  suffices h : ∀ c : BrokenLinkCollector P, entriesGood c.links →
      entriesGood (ls.foldl ingest c).links by
    refine h (BrokenLinkCollector.new P) ?_
    intro e hmem us hus
    simp [BrokenLinkCollector.new] at hmem
  induction ls with
  | nil => intro c hc; exact hc
  | cons l ls ih => intro c hc; exact ih (ingest c l) (entriesGood_ingest c l hc)

theorem entriesGood_mergeFold {P : Type} (b : List (List Nat × LinkState P)) :
    ∀ a : List (List Nat × LinkState P), entriesGood a → entriesGood b →
      entriesGood (b.foldl mergeStep a) := by
  induction b with
  | nil => intro a ha _; exact ha
  | cons e0 rest ih =>
    intro a ha hb
    rcases e0 with ⟨k, s⟩
    have hbrest : entriesGood rest := fun e hmem us hus => hb e (List.mem_cons_of_mem _ hmem) us hus
    have hbhead : ∀ us, s = LinkState.undefined us → is_bad_schema k = false :=
      fun us hus => hb (k, s) (List.mem_cons_self _ _) us hus
    rw [List.foldl_cons]
    refine ih (mergeStep a (k, s)) ?_ hbrest
    have hms : mergeStep a (k, s) = (match mapGet a k with
        | some state => mapInsert a k (state.update s)
        | none => mapInsert a k s) := rfl
    cases hget : mapGet a k with
    | some s0 =>
      rw [hget] at hms
      rw [hms]
      intro e hmem us hus
      rcases mem_mapInsert_elim a k _ e hmem with hin | rfl
      · exact ha e hin us hus
      · cases s0 with
        | defined => exact absurd hus (by simp [LinkState.update])
        | undefined la =>
          exact ha (k, .undefined la) (mem_of_mapGet_eq_some a k _ hget) la rfl
    | none =>
      rw [hget] at hms
      rw [hms]
      intro e hmem us hus
      rcases mem_mapInsert_elim a k _ e hmem with hin | rfl
      · exact ha e hin us hus
      · exact hbhead us hus

/-- C8: ingesting a `Uses` link with an external href leaves the collector
unchanged (neither the href map nor the used-link count moves), and
consequently no broken link reported for any merged pair of ingest-built
collectors has an external href. -/
theorem external_links_excluded (P : Type) :
    (∀ (c : BrokenLinkCollector P) (u : UsedLink P),
      is_external_link u.href = true → ingest c (.uses u) = c) ∧
    (∀ (la lb : List (Link P)) (ca : Bool) (bl : BrokenLink P),
      bl ∈ get_broken_links (merge (buildCollector la) (buildCollector lb)) ca →
      is_external_link bl.link.href = false) := by
  constructor
  · intro c u hext
    have hbad : is_bad_schema u.href = true := by
      rw [is_bad_schema_eq_is_external_link]; exact hext
    simp [ingest, hbad]
  · intro la lb ca bl hmem
    have hnd : (((merge (buildCollector la) (buildCollector lb)).links).map Prod.fst).Nodup :=
      nodup_keys_mergeFold (buildCollector lb).links (buildCollector la).links
        (nodup_keys_build la)
    rcases (mem_get_broken_links _ hnd ca bl).mp hmem with ⟨us, hget, -, -⟩
    have hment := mem_of_mapGet_eq_some _ _ _ hget
    have hgood : entriesGood (merge (buildCollector la) (buildCollector lb)).links :=
      entriesGood_mergeFold (buildCollector lb).links (buildCollector la).links
        (entriesGood_build la) (entriesGood_build lb)
    have hbad : is_bad_schema bl.link.href = false := hgood _ hment us rfl
    rw [← is_bad_schema_eq_is_external_link]
    exact hbad

/-- Witness for C8: an obfuscated-scheme `Uses` (`http:`) is a no-op on a
fresh collector, and the broken link reported for the internal href `x` is not
external. -/
theorem external_links_excluded_witness :
    ingest (BrokenLinkCollector.new Nat) (.uses ⟨chl ['h', 't', 't', 'p', ':'], [], none⟩) =
      BrokenLinkCollector.new Nat ∧
    is_external_link (chl ['x']) = false :=
  ⟨(external_links_excluded Nat).1 (BrokenLinkCollector.new Nat)
      ⟨chl ['h', 't', 't', 'p', ':'], [], none⟩ (by decide),
   (external_links_excluded Nat).2 [.uses ⟨chl ['x'], [], none⟩] [] false
      ⟨true, ⟨chl ['x'], [], none⟩⟩ (by decide)⟩

end Hyperlink
